import Mathlib

/-!
Verification development for the mina-pipeline repository.

This file gives a shallow embedding, in Lean, of the core of the pipeline:

* the string utilities used by the cleaning stage
  (`src/mediacloud/clean.py`, `src/clean.py`): Python `str.lower`,
  substring test (`in`), `str.count`, `str.split`, string comparison,
  and `hashlib.md5(...).hexdigest()`;
* the cleaning stage itself: the relevance filters, description
  truncation, the deterministic sort key, the per-record processing
  loop of `main`, and the run outcome (abort / no-new / written);
* the fetch checkpoint (`src/collect/fetch.py`,
  `src/collect/mcloud-fetch-urls.py`): `load_checkpoint`,
  `is_complete`, `mark_complete`, and the guarded marking events of
  the pre-scan and the main fetch loop;
* the paginated fetch loop `iter_stories` with its retry/backoff
  classification, modelled over an explicit script of API responses.

Machine integers are modelled as `Nat` with explicit `% 2 ^ 32` where
the MD5 rounds overflow.  All definitions are executable.
-/

/-! ## Python string primitives

Strings are processed as `List Char`.  Python compares strings by code
points; `str.lower` is modelled by `Char.toLower`, which agrees with
Python on the ASCII range used by this pipeline (queries, URLs, ISO
dates, English keywords). -/

/-- Python `str.lower` on a list of characters (ASCII case folding). -/
def lowerChars (s : List Char) : List Char :=
  s.map Char.toLower

/-- Python `sub in s` substring test for strings. -/
def containsSub (s sub : List Char) : Bool :=
  match s with
  | [] => sub.isEmpty
  | _ :: rest => sub.isPrefixOf s || containsSub rest sub

/-- Recursion worker for `countSub`. -/
def countSubAux : Nat → List Char → List Char → Nat
  | 0, _, _ => 0
  | _, [], _ => 0
  | fuel + 1, a :: rest, sub =>
    if sub ≠ [] ∧ sub.isPrefixOf (a :: rest) then
      countSubAux fuel ((a :: rest).drop sub.length) sub + 1
    else countSubAux fuel rest sub

/-- Python `s.count(sub)` for a non-empty `sub`: number of
non-overlapping occurrences, scanning left to right, one character
consumed per step so the length of `s` bounds the recursion.  (Python
returns `len(s) + 1` for an empty pattern; the pipeline never counts
an empty keyword, and this model returns `0` there.) -/
def countSub (s sub : List Char) : Nat :=
  countSubAux s.length s sub

/-- Python string comparison `s < t`: lexicographic by code point,
a strict prefix is smaller. -/
def strLt : List Char → List Char → Bool
  | _, [] => false
  | [], _ :: _ => true
  | a :: as, b :: bs =>
    if a.toNat < b.toNat then true
    else if b.toNat < a.toNat then false
    else strLt as bs

def splitWsAux : Nat → List Char → List (List Char)
  | 0, _ => []
  | _, [] => []
  | fuel + 1, c :: rest =>
    if c.isWhitespace then splitWsAux fuel rest
    else
      (c :: rest.takeWhile (fun x => !x.isWhitespace)) ::
        splitWsAux fuel (rest.dropWhile (fun x => !x.isWhitespace))

/-- Python `str.split()` with no separator: split on runs of
whitespace, dropping empty fields (the fuel argument of `splitWsAux`
merely bounds the recursion by the length of the string, one character
consumed per step). -/
def splitWs (l : List Char) : List (List Char) :=
  splitWsAux l.length l

/-- Number of whitespace-separated words of a string, Python
`len(s.split())`. -/
def wordCount (s : String) : Nat :=
  (splitWs s.data).length

/-- Python `" ".join(words)`. -/
def joinSpace : List (List Char) → List Char
  | [] => []
  | [w] => w
  | w :: ws => w ++ ' ' :: joinSpace ws

/-! ## MD5 (`hashlib.md5(x.encode()).hexdigest()`)

The cleaning stage's sort key and the checkpoint query fingerprint
both use MD5 hex digests of UTF-8 encoded strings.  The algorithm is
embedded concretely over `Nat`, reducing modulo `2 ^ 32`. -/

/-- UTF-8 encoding of one character, as a list of byte values. -/
def utf8Bytes (c : Char) : List Nat :=
  let n := c.toNat
  if n < 0x80 then [n]
  else if n < 0x800 then
    [0xC0 ||| (n >>> 6), 0x80 ||| (n &&& 0x3F)]
  else if n < 0x10000 then
    [0xE0 ||| (n >>> 12), 0x80 ||| ((n >>> 6) &&& 0x3F), 0x80 ||| (n &&& 0x3F)]
  else
    [0xF0 ||| (n >>> 18), 0x80 ||| ((n >>> 12) &&& 0x3F),
     0x80 ||| ((n >>> 6) &&& 0x3F), 0x80 ||| (n &&& 0x3F)]

/-- Python `s.encode()`: UTF-8 bytes of a string. -/
def encodeUtf8 (s : String) : List Nat :=
  s.data.flatMap utf8Bytes

/-- The 64 MD5 round constants `floor(2^32 * abs(sin(i + 1)))`. -/
def md5K : List Nat :=
  [0xd76aa478, 0xe8c7b756, 0x242070db, 0xc1bdceee, 0xf57c0faf, 0x4787c62a, 0xa8304613, 0xfd469501,
   0x698098d8, 0x8b44f7af, 0xffff5bb1, 0x895cd7be, 0x6b901122, 0xfd987193, 0xa679438e, 0x49b40821,
   0xf61e2562, 0xc040b340, 0x265e5a51, 0xe9b6c7aa, 0xd62f105d, 0x02441453, 0xd8a1e681, 0xe7d3fbc8,
   0x21e1cde6, 0xc33707d6, 0xf4d50d87, 0x455a14ed, 0xa9e3e905, 0xfcefa3f8, 0x676f02d9, 0x8d2a4c8a,
   0xfffa3942, 0x8771f681, 0x6d9d6122, 0xfde5380c, 0xa4beea44, 0x4bdecfa9, 0xf6bb4b60, 0xbebfbc70,
   0x289b7ec6, 0xeaa127fa, 0xd4ef3085, 0x04881d05, 0xd9d4d039, 0xe6db99e5, 0x1fa27cf8, 0xc4ac5665,
   0xf4292244, 0x432aff97, 0xab9423a7, 0xfc93a039, 0x655b59c3, 0x8f0ccc92, 0xffeff47d, 0x85845dd1,
   0x6fa87e4f, 0xfe2ce6e0, 0xa3014314, 0x4e0811a1, 0xf7537e82, 0xbd3af235, 0x2ad7d2bb, 0xeb86d391]

/-- The per-round left-rotation amounts of MD5. -/
def md5S : List Nat :=
  [7, 12, 17, 22, 7, 12, 17, 22, 7, 12, 17, 22, 7, 12, 17, 22,
   5, 9, 14, 20, 5, 9, 14, 20, 5, 9, 14, 20, 5, 9, 14, 20,
   4, 11, 16, 23, 4, 11, 16, 23, 4, 11, 16, 23, 4, 11, 16, 23,
   6, 10, 15, 21, 6, 10, 15, 21, 6, 10, 15, 21, 6, 10, 15, 21]

/-- Bitwise complement inside a 32-bit word. -/
def not32 (x : Nat) : Nat :=
  0xffffffff - x

/-- Left rotation of a 32-bit word by `n` places. -/
def rotl32 (x n : Nat) : Nat :=
  ((x <<< n) % 2 ^ 32) ||| (x >>> (32 - n))

/-- One MD5 round: `m` fetches the message words of the current block. -/
def md5Round (m : Nat → Nat) (st : Nat × Nat × Nat × Nat) (i : Nat) :
    Nat × Nat × Nat × Nat :=
  let (a, b, c, d) := st
  let f :=
    if i < 16 then (b &&& c) ||| (not32 b &&& d)
    else if i < 32 then (d &&& b) ||| (not32 d &&& c)
    else if i < 48 then b ^^^ c ^^^ d
    else c ^^^ (b ||| not32 d)
  let g :=
    if i < 16 then i
    else if i < 32 then (5 * i + 1) % 16
    else if i < 48 then (3 * i + 5) % 16
    else (7 * i) % 16
  let f := (f + a + md5K.getD i 0 + m g) % 2 ^ 32
  (d, (b + rotl32 f (md5S.getD i 0)) % 2 ^ 32, b, c)

/-- Little-endian byte serialization of a value into `k` bytes. -/
def leBytes : Nat → Nat → List Nat
  | 0, _ => []
  | k + 1, v => v % 256 :: leBytes k (v / 256)

/-- Processes one 64-byte block of the padded message. -/
def md5Block (st : Nat × Nat × Nat × Nat) (block : List Nat) :
    Nat × Nat × Nat × Nat :=
  let m : Nat → Nat := fun j =>
    block.getD (4 * j) 0 + 256 * block.getD (4 * j + 1) 0 +
      65536 * block.getD (4 * j + 2) 0 + 16777216 * block.getD (4 * j + 3) 0
  let (a, b, c, d) := (List.range 64).foldl (md5Round m) st
  ((st.1 + a) % 2 ^ 32, (st.2.1 + b) % 2 ^ 32,
   (st.2.2.1 + c) % 2 ^ 32, (st.2.2.2 + d) % 2 ^ 32)

/-- MD5 padding: a `0x80` byte, zeros to 56 mod 64, then the bit
length as a 64-bit little-endian value. -/
def md5Pad (msg : List Nat) : List Nat :=
  let len := msg.length
  let z := (120 - (len + 1) % 64) % 64
  msg ++ 0x80 :: List.replicate z 0 ++ leBytes 8 ((8 * len) % 2 ^ 64)

/-- Splits a list into chunks of 64 elements (`fuel` bounds the
recursion by the list length). -/
def chunks64 : Nat → List Nat → List (List Nat)
  | 0, _ => []
  | _, [] => []
  | fuel + 1, l => l.take 64 :: chunks64 fuel (l.drop 64)

/-- MD5 digest of a byte list. -/
def md5Bytes (msg : List Nat) : List Nat :=
  let padded := md5Pad msg
  let (a, b, c, d) :=
    (chunks64 padded.length padded).foldl md5Block
      (0x67452301, 0xefcdab89, 0x98badcfe, 0x10325476)
  leBytes 4 a ++ leBytes 4 b ++ leBytes 4 c ++ leBytes 4 d

/-- Lowercase hex digit for a value below 16. -/
def hexDigit (n : Nat) : Char :=
  ("0123456789abcdef".data).getD n '0'

/-- Two-character lowercase hex rendering of one byte. -/
def byteHex (b : Nat) : List Char :=
  [hexDigit (b / 16), hexDigit (b % 16)]

/-- Python `hashlib.md5(s.encode()).hexdigest()`. -/
def md5Hex (s : String) : String :=
  ⟨(md5Bytes (encodeUtf8 s)).flatMap byteHex⟩

/-! ## Cleaning stage data model

Shallow embedding of `src/mediacloud/clean.py` (the single-topic
`src/clean.py` has the same record-processing structure minus the
strict filter, truncation and meta header).  JSON records are modelled
as structures; `Option` fields model keys that may be absent or null
in ways the pipeline observes only through `dict.get`. -/

/-- One scraped record of `articles.jsonl` / `descriptions.jsonl`
(`scrape_description` always emits the `url`, `title`, `description`,
`success` keys; `title` / `description` may be null). -/
structure Article where
  success : Bool
  url : Option String
  title : Option String
  description : Option String
deriving DecidableEq, Repr

/-- One search-API record of `urls.jsonl`. -/
structure UrlsRecord where
  url : String
  media_url : Option String := none
  publish_date : Option String := none
  language : Option String := none
deriving DecidableEq, Repr

/-- One cleaned output record, in `OUTPUT_KEY_ORDER` field order.
`url` and `my_topic` are always present in records the pipeline
produces; the other keys may be absent or null. -/
structure Entry where
  media_url : Option String
  title : Option String
  description : Option String
  publish_date : Option String
  url : String
  my_topic : String
deriving DecidableEq, Repr

/-- A topic configuration (`config.get_topic_config`): the keyword
lists the cleaning stage consumes. -/
structure TopicConfig where
  name : String
  filter_keywords : List String
  topic_keywords : List String
  exclude_keywords : List String
deriving DecidableEq, Repr

/-- Lookup in `build_url_index(urls_entries)`: a Python dict built in
list order, so a later record with the same `url` overwrites an
earlier one — lookup returns the last matching record. -/
def build_url_index (urls : List UrlsRecord) (u : String) : Option UrlsRecord :=
  urls.reverse.find? (fun r => r.url == u)

/-- Reproduces `truncate_description` of `src/mediacloud/clean.py`:
keep a text of at most `max_words` whitespace-separated words
unchanged, otherwise keep the first `max_words` words joined by single
spaces and append an ellipsis. -/
def truncate_description (text : String) (max_words : Nat := 50) : String :=
  if text = "" then text
  else
    let words := splitWs text.data
    if words.length ≤ max_words then text
    else ⟨joinSpace (words.take max_words) ++ "...".data⟩

/-- Reproduces `is_topic_related`: at least one broad keyword must
occur in `title + " " + description` (case-insensitively) and no
exclude keyword may occur there. -/
def is_topic_related (a : Article) (filter_keywords exclude_keywords : List String) : Bool :=
  let text := lowerChars ((a.title.getD "") ++ " " ++ (a.description.getD "")).data
  (filter_keywords.any fun kw => containsSub text (lowerChars kw.data)) &&
    !(exclude_keywords.any fun kw => containsSub text (lowerChars kw.data))

/-- Reproduces `is_topic_relevant`: with no strict keywords the filter
passes everything; otherwise some keyword must occur in the title, or
occur at least twice in the description (case-insensitively). -/
def is_topic_relevant (e : Entry) (topic_keywords : List String) : Bool :=
  if topic_keywords.isEmpty then true
  else
    let title := lowerChars (e.title.getD "").data
    let description := lowerChars (e.description.getD "").data
    topic_keywords.any fun kw0 =>
      let kw := lowerChars kw0.data
      containsSub title kw || decide (countSub description kw ≥ 2)

/-- Digit inversion used by the sort key: `str(9 - int(c))`. -/
def invDigit : Char → Char
  | '0' => '9'
  | '1' => '8'
  | '2' => '7'
  | '3' => '6'
  | '4' => '5'
  | '5' => '4'
  | '6' => '3'
  | '7' => '2'
  | '8' => '1'
  | '9' => '0'
  | c => c

/-- The digit-inverted form of a date string: each digit `d` becomes
`9 - d`, other characters are unchanged. -/
def invertChars (l : List Char) : List Char :=
  l.map fun c => if c.isDigit then invDigit c else c

/-- Two strings have the same shape when they agree positionally on
which characters are digits and their non-digit characters coincide
(as the ISO dates of this pipeline do). -/
def sameShape : List Char → List Char → Bool
  | [], [] => true
  | a :: as, b :: bs =>
    ((a.isDigit && b.isDigit) || (!a.isDigit && !b.isDigit && a == b)) && sameShape as bs
  | _, _ => false

/-- Reproduces `entry_sort_key`: the pair
`(inverted publish_date, md5 hex of url)`, with the `"0000-00-00"`
sentinel for a missing `publish_date`.  Compared as Python compares
string pairs (lexicographically by code point). -/
def entry_sort_key (e : Entry) : List Char × List Char :=
  (invertChars (e.publish_date.getD "0000-00-00").data, (md5Hex e.url).data)

/-- Strict comparison of sort keys, Python tuple `<`. -/
def keyLt (k1 k2 : List Char × List Char) : Bool :=
  strLt k1.1 k2.1 || (k1.1 == k2.1 && strLt k1.2 k2.2)

/-- The (total pre)order Python's stable `list.sort(key=entry_sort_key)`
sorts by: `a` may precede `b` unless `b`'s key is strictly smaller. -/
def entryLe (a b : Entry) : Bool :=
  !keyLt (entry_sort_key b) (entry_sort_key a)

/-- Stable insertion of an entry into a sorted list: the new element
goes before the first existing element it may precede, so among equal
keys earlier input elements stay earlier. -/
def insertSorted (x : Entry) : List Entry → List Entry
  | [] => [x]
  | y :: ys => if entryLe x y then x :: y :: ys else y :: insertSorted x ys

/-- Reproduces `all_entries.sort(key=entry_sort_key)`: Python's sort
is a stable sort ascending in the key order, and a stable sort of a
list under a fixed total preorder is unique, so this stable insertion
sort computes the same list. -/
def sortEntries : List Entry → List Entry
  | [] => []
  | a :: l => insertSorted a (sortEntries l)

/-- The mutable state of the record-processing loop of `main`. -/
structure CleanState where
  existing_urls : List String
  new_entries : List Entry
  count_added : Nat
  count_skipped_not_success : Nat
  count_skipped_already_exists : Nat
  count_skipped_non_english : Nat
  count_skipped_not_topic : Nat
  count_skipped_not_relevant : Nat
  missing_urls : List String
  problems : Nat
deriving DecidableEq, Repr

/-- The loop state before the first article: the url set is seeded
from the entries already in the output file. -/
def initState (existing : List Entry) : CleanState :=
  { existing_urls := existing.map (·.url), new_entries := [], count_added := 0,
    count_skipped_not_success := 0, count_skipped_already_exists := 0,
    count_skipped_non_english := 0, count_skipped_not_topic := 0,
    count_skipped_not_relevant := 0, missing_urls := [], problems := 0 }

/-- Builds the cleaned entry: `combined = {**urls_data, **entry}` with
the article's always-present `url`/`title`/`description` keys taking
precedence, `my_topic` set to the topic, and a truthy description run
through `truncate_description`.  `publish_date` and `media_url` come
from the urls record only. -/
def mkCleanedEntry (topic : String) (a : Article) (u : String) (ud : UrlsRecord) : Entry :=
  let desc :=
    match a.description with
    | some d => if d ≠ "" then some (truncate_description d) else some d
    | none => none
  { media_url := ud.media_url, title := a.title, description := desc,
    publish_date := ud.publish_date, url := u, my_topic := topic }

/-- One iteration of the `for entry in articles_entries` loop of
`main` (`src/mediacloud/clean.py` lines 466-518): the skip cascade,
the merge-join lookup, both filters, and the append. -/
def processEntry (cfg : TopicConfig) (urls : List UrlsRecord) (st : CleanState)
    (a : Article) : CleanState :=
  if !a.success then
    { st with count_skipped_not_success := st.count_skipped_not_success + 1 }
  else
    match a.url with
    | none => { st with problems := st.problems + 1 }
    | some u =>
      if u = "" then { st with problems := st.problems + 1 }
      else if st.existing_urls.contains u then
        { st with count_skipped_already_exists := st.count_skipped_already_exists + 1 }
      else
        match build_url_index urls u with
        | none => { st with missing_urls := st.missing_urls ++ [u] }
        | some ud =>
          if lowerChars (ud.language.getD "").data ≠ "en".data then
            { st with count_skipped_non_english := st.count_skipped_non_english + 1 }
          else if !is_topic_related a cfg.filter_keywords cfg.exclude_keywords then
            { st with count_skipped_not_topic := st.count_skipped_not_topic + 1 }
          else
            if cfg.topic_keywords ≠ [] ∧
                !is_topic_relevant (mkCleanedEntry cfg.name a u ud) cfg.topic_keywords then
              { st with count_skipped_not_relevant := st.count_skipped_not_relevant + 1 }
            else
              { st with new_entries := st.new_entries ++ [mkCleanedEntry cfg.name a u ud],
                        existing_urls := st.existing_urls ++ [u],
                        count_added := st.count_added + 1 }

/-- The whole processing loop over the scraped records. -/
def processArticles (cfg : TopicConfig) (urls : List UrlsRecord) (st : CleanState) :
    List Article → CleanState
  | [] => st
  | a :: rest => processArticles cfg urls (processEntry cfg urls st a) rest

/-- The metadata header written as the first output line
(`create_meta_header`); `date_range` is derived from
`dates_collected` and omitted here, `last_updated` is
`datetime.now().isoformat()` at write time. -/
structure MetaHeader where
  topic : String
  record_count : Nat
  dates_collected : List String
  last_updated : String
deriving DecidableEq, Repr

/-- Reproduces `create_meta_header`. -/
def create_meta_header (topic : String) (record_count : Nat)
    (dates_collected : List String) (now : String) : MetaHeader :=
  { topic := topic, record_count := record_count,
    dates_collected := dates_collected, last_updated := now }

/-- What a cleaning run does to the output file: abort with the
missing-URL report before any write (`sys.exit(1)`), return without
writing when nothing was added, or rewrite the file with the meta
header followed by the sorted entries. -/
inductive RunOutcome where
  | abort (missing : List String)
  | noNew
  | written (header : MetaHeader) (entries : List Entry)
deriving DecidableEq, Repr

/-- The run tail of `main` after loading: process all articles, abort
on any missing URL, stop early when nothing was added, otherwise sort
and write. -/
def cleanRun (cfg : TopicConfig) (articles : List Article) (urls : List UrlsRecord)
    (existing : List Entry) (dates : List String) (now : String) : RunOutcome :=
  if (processArticles cfg urls (initState existing) articles).missing_urls ≠ [] then
    .abort (processArticles cfg urls (initState existing) articles).missing_urls
  else if (processArticles cfg urls (initState existing) articles).count_added = 0 then
    .noNew
  else
    .written
      (create_meta_header cfg.name
        (sortEntries
          (existing ++ (processArticles cfg urls (initState existing) articles).new_entries)).length
        dates now)
      (sortEntries
        (existing ++ (processArticles cfg urls (initState existing) articles).new_entries))

/-- Process exit code of a run. -/
def exitCode : RunOutcome → Nat
  | .abort _ => 1
  | _ => 0

/-- The URLs the critical-error report prints (`missing_urls[:10]`). -/
def reportShown (missing : List String) : List String :=
  missing.take 10

/-- The count of the report's trailing `... and N more` line
(`0` when ten or fewer URLs are missing). -/
def reportOverflow (missing : List String) : Nat :=
  missing.length - 10

/-! ## Fetch checkpoint (`src/collect/fetch.py`, `src/collect/mcloud-fetch-urls.py`)

The checkpoint JSON object `{"completed": {source: [day, ...]},
"expected_counts": {...}, "query_hash": str}` is modelled with
association lists. -/

/-- An in-memory checkpoint as the fetch scripts use it. -/
structure Checkpoint where
  completed : List (String × List String)
  expected_counts : List (String × Int)
  query_hash : String
deriving DecidableEq, Repr

/-- A persisted checkpoint file as parsed from JSON: `query_hash` may
be absent (older files). -/
structure StoredCheckpoint where
  completed : List (String × List String)
  expected_counts : List (String × Int)
  query_hash : Option String
deriving DecidableEq, Repr

/-- Reproduces `get_query_hash`: the first 12 characters of the MD5
hex digest of the query. -/
def get_query_hash (query : String) : String :=
  (md5Hex query).take 12

/-- Reproduces `load_checkpoint`: `stored = none` models a missing or
unparsable checkpoint file.  A present, truthy stored hash differing
from the current query hash discards the checkpoint; a falsy stored
hash is replaced by the current hash with the data kept. -/
def load_checkpoint (stored : Option StoredCheckpoint) (query : String) : Checkpoint :=
  let current := get_query_hash query
  match stored with
  | none => { completed := [], expected_counts := [], query_hash := current }
  | some d =>
    let sh := d.query_hash.getD ""
    if sh ≠ "" ∧ sh ≠ current then
      { completed := [], expected_counts := [], query_hash := current }
    else if sh = "" then
      { completed := d.completed, expected_counts := d.expected_counts,
        query_hash := current }
    else
      { completed := d.completed, expected_counts := d.expected_counts,
        query_hash := sh }

/-- Days recorded complete for a source,
`checkpoint.get("completed", {}).get(source, [])`. -/
def completedDays (cp : Checkpoint) (source : String) : List String :=
  match cp.completed.find? (fun p => p.1 == source) with
  | some p => p.2
  | none => []

/-- Reproduces `is_complete` (days are passed as ISO strings). -/
def is_complete (cp : Checkpoint) (day source : String) : Bool :=
  (completedDays cp source).contains day

/-- Replaces (or inserts) the day list of one source. -/
def setCompleted (l : List (String × List String)) (k : String) (v : List String) :
    List (String × List String) :=
  match l with
  | [] => [(k, v)]
  | (k0, v0) :: rest =>
    if k0 == k then (k, v) :: rest else (k0, v0) :: setCompleted rest k v

/-- Reproduces `mark_complete`: `setdefault` the source's day list and
append the day unless already present. -/
def mark_complete (cp : Checkpoint) (day source : String) : Checkpoint :=
  let days := completedDays cp source
  let days2 := if days.contains day then days else days ++ [day]
  { cp with completed := setCompleted cp.completed source days2 }

/-- A fresh checkpoint for a query (what `load_checkpoint` returns
when nothing usable is stored). -/
def emptyCheckpoint (query : String) : Checkpoint :=
  { completed := [], expected_counts := [], query_hash := get_query_hash query }

/-- The marking decisions a run makes for one (day, source) unit, with
the expected count and held record count the code compared at that
point.  `prescan` is the reconciliation step of
`prescan_and_mark_complete` (which skips units with no held records),
`fetchUnit` the completion check after fetching a unit in `main`, and
`fetchAborted` a unit abandoned because a non-transient exception
escaped `iter_stories`. -/
inductive MarkEvent where
  | prescan (day source : String) (expected : Int) (held : Nat)
  | fetchUnit (day source : String) (expected : Int) (held : Nat)
  | fetchAborted (day source : String)
deriving DecidableEq, Repr

/-- Applies one marking decision exactly as the code guards it. -/
def applyEvent (cp : Checkpoint) : MarkEvent → Checkpoint
  | .prescan d s exp held =>
    if is_complete cp d s then cp
    else if held = 0 then cp
    else if 0 ≤ exp ∧ (held : Int) ≥ exp then mark_complete cp d s
    else cp
  | .fetchUnit d s exp held =>
    if is_complete cp d s then cp
    else if 0 ≤ exp ∧ (held : Int) ≥ exp then mark_complete cp d s
    else cp
  | .fetchAborted _ _ => cp

/-- Runs a sequence of marking decisions. -/
def runEvents (cp : Checkpoint) : List MarkEvent → Checkpoint
  | [] => cp
  | e :: rest => runEvents (applyEvent cp e) rest

/-- Whether an event actually marks the given unit complete under the
code's guards. -/
def marksUnit (e : MarkEvent) (day source : String) : Bool :=
  match e with
  | .prescan d s exp held =>
    d == day && s == source && !(held == 0) && decide (0 ≤ exp) && decide ((held : Int) ≥ exp)
  | .fetchUnit d s exp held =>
    d == day && s == source && decide (0 ≤ exp) && decide ((held : Int) ≥ exp)
  | .fetchAborted _ _ => false

/-- Modelled from the spec's words (section 8, checkpoint
correctness): the completion condition the claim states — at that
point the unit's expected count was nonnegative and the held record
count reached it.  Compared against `marksUnit`, the guard the source
actually applies. -/
def specCompletionTrigger (e : MarkEvent) (day source : String) : Bool :=
  match e with
  | .prescan d s exp held =>
    d == day && s == source && decide (0 ≤ exp) && decide ((held : Int) ≥ exp)
  | .fetchUnit d s exp held =>
    d == day && s == source && decide (0 ≤ exp) && decide ((held : Int) ≥ exp)
  | .fetchAborted _ _ => false

/-- The expected count an event carried (`-1` for an aborted unit,
whose completion check never runs). -/
def expectedOf : MarkEvent → Int
  | .prescan _ _ exp _ => exp
  | .fetchUnit _ _ exp _ => exp
  | .fetchAborted _ _ => -1

/-! ## Paginated fetch loop (`iter_stories`) -/

/-- A story record; only the source-assigned `id` matters to the
fetch-loop dedup. -/
structure Story where
  id : String
deriving DecidableEq, Repr

/-- One `client.story_list` call: either a page of stories with an
optional continuation token, or an exception with its message. -/
inductive PageRes where
  | ok (page : List Story) (tok : Option String)
  | error (msg : String)
deriving DecidableEq, Repr

/-- Retry settings of the fetch scripts. -/
def INITIAL_WAIT : Nat := 40

/-- Cap on the exponential backoff wait. -/
def MAX_WAIT : Nat := 600

/-- The transient-error classification of `iter_stories`: `"429" in
str(e) or "connection" in err or "timeout" in err or "expecting
value" in err` with `err = str(e).lower()`. -/
def isTransientError (msg : String) : Bool :=
  containsSub msg.data "429".data ||
    containsSub (lowerChars msg.data) "connection".data ||
    containsSub (lowerChars msg.data) "timeout".data ||
    containsSub (lowerChars msg.data) "expecting value".data

/-- Runs the `while more` loop of `iter_stories` against a script of
`story_list` results, starting from a consecutive-error count.
Returns the stories yielded, the backoff waits slept (in seconds), and
the message of a non-transient exception if one escaped.  A transient
error consumes one script element, sleeps
`min(INITIAL_WAIT * 2 ** (consecutive_errors - 1), MAX_WAIT)` and
retries; a success resets the error count, stops on an empty page or a
missing token.  (An exhausted script ends the loop.) -/
def iterStories : Nat → List PageRes → List Story × List Nat × Option String
  | _, [] => ([], [], none)
  | consecutive, r :: rest =>
    match r with
    | .error msg =>
      if isTransientError msg then
        let w := min (INITIAL_WAIT * 2 ^ consecutive) MAX_WAIT
        let out := iterStories (consecutive + 1) rest
        (out.1, w :: out.2.1, out.2.2)
      else ([], [], some msg)
    | .ok page tok =>
      if page.isEmpty then ([], [], none)
      else
        match tok with
        | none => (page, [], none)
        | some _ =>
          let out := iterStories 0 rest
          (page ++ out.1, out.2.1, out.2.2)

/-- Splits the fetched stories into new and already-known by `id`
(the loop body of `main`: write and remember a new id, count a known
one as skipped). -/
def ingestStories (ids : List String) : List Story → List String × Nat × Nat
  | [] => (ids, 0, 0)
  | s :: rest =>
    if ids.contains s.id then
      let out := ingestStories ids rest
      (out.1, out.2.1, out.2.2 + 1)
    else
      let out := ingestStories (ids ++ [s.id]) rest
      (out.1, out.2.1 + 1, out.2.2)

/-- One (day, source) unit of the outer loop of `main`: the script its
`story_list` calls would produce and the expected count consulted
after fetching. -/
structure FetchUnit where
  day : String
  source : String
  script : List PageRes
  expected : Int
deriving DecidableEq

/-- Processes one unit of the outer fetch loop: skip when already
complete; otherwise fetch, ingest, and on a clean finish mark the unit
complete when `expected >= 0 and have >= expected`.  A non-transient
exception leaves the checkpoint untouched (`except ...: continue`). -/
def processUnit (cp : Checkpoint) (ids : List String) (u : FetchUnit) :
    Checkpoint × List String :=
  if is_complete cp u.day u.source then (cp, ids)
  else
    let out := iterStories 0 u.script
    let ing := ingestStories ids out.1
    match out.2.2 with
    | some _ => (cp, ing.1)
    | none =>
      if 0 ≤ u.expected ∧ ((ing.2.1 + ing.2.2 : Nat) : Int) ≥ u.expected then
        (mark_complete cp u.day u.source, ing.1)
      else (cp, ing.1)

/-- The outer loop over all (day, source) units. -/
def processUnits (cp : Checkpoint) (ids : List String) :
    List FetchUnit → Checkpoint × List String
  | [] => (cp, ids)
  | u :: rest =>
    let out := processUnit cp ids u
    processUnits out.1 out.2 rest
/-! ## Checkpoint lemmas -/

lemma find?_setCompleted (l : List (String × List String)) (k k2 : String) (v : List String) :
    (setCompleted l k v).find? (fun p => p.1 == k2) =
      if k = k2 then some (k, v) else l.find? (fun p => p.1 == k2) := by
  induction l with
  | nil =>
    by_cases h : k = k2
    · subst h
      simp [setCompleted, List.find?]
    · simp only [setCompleted, if_neg h]
      rw [List.find?_cons_of_neg _ (by simp [h]), List.find?_nil]
  | cons hd tl ih =>
    obtain ⟨k0, v0⟩ := hd
    by_cases hh : k0 = k
    · subst hh
      simp only [setCompleted, beq_self_eq_true, if_pos]
      by_cases h : k0 = k2
      · subst h
        rw [List.find?_cons_of_pos _ (by simp), if_pos rfl]
      · rw [List.find?_cons_of_neg _ (by simp [h]), if_neg h,
          List.find?_cons_of_neg _ (by simp [h])]
    · have hne : (k0 == k) = false := by simp [hh]
      simp only [setCompleted, hne, Bool.false_eq_true, if_false]
      by_cases h2 : k0 = k2
      · subst h2
        have hk : ¬k = k0 := fun he => hh he.symm
        rw [List.find?_cons_of_pos _ (by simp), if_neg hk,
          List.find?_cons_of_pos _ (by simp)]
      · rw [List.find?_cons_of_neg _ (by simp [h2]), ih]
        by_cases h : k = k2
        · simp [h]
        · rw [if_neg h, if_neg h, List.find?_cons_of_neg _ (by simp [h2])]

lemma completedDays_mark_self (cp : Checkpoint) (day source : String) :
    completedDays (mark_complete cp day source) source =
      (if (completedDays cp source).contains day then completedDays cp source
       else completedDays cp source ++ [day]) := by
  unfold mark_complete
  conv_lhs => unfold completedDays
  rw [find?_setCompleted, if_pos rfl]
  rfl

lemma completedDays_mark_other (cp : Checkpoint) (day source s2 : String) (h : source ≠ s2) :
    completedDays (mark_complete cp day source) s2 = completedDays cp s2 := by
  unfold mark_complete
  conv_lhs => unfold completedDays
  rw [find?_setCompleted, if_neg h]
  rfl

lemma contains_append_singleton (l : List String) (a b : String) :
    (l ++ [a]).contains b = true ↔ (l.contains b = true ∨ a = b) := by
  simp only [List.elem_iff, List.mem_append, List.mem_singleton]
  constructor
  · rintro (h | rfl)
    · exact Or.inl h
    · exact Or.inr rfl
  · rintro (h | rfl)
    · exact Or.inl h
    · exact Or.inr rfl

lemma is_complete_mark_iff (cp : Checkpoint) (day source d2 s2 : String) :
    is_complete (mark_complete cp day source) d2 s2 = true ↔
      (is_complete cp d2 s2 = true ∨ (source = s2 ∧ day = d2)) := by
  by_cases hs : source = s2
  · subst hs
    unfold is_complete
    rw [completedDays_mark_self]
    by_cases hc : (completedDays cp source).contains day
    · rw [if_pos hc]
      constructor
      · exact Or.inl
      · rintro (h | ⟨-, rfl⟩)
        · exact h
        · exact hc
    · rw [if_neg hc, contains_append_singleton]
      constructor
      · rintro (h | rfl)
        · exact Or.inl h
        · exact Or.inr ⟨rfl, rfl⟩
      · rintro (h | ⟨-, rfl⟩)
        · exact Or.inl h
        · exact Or.inr rfl
  · unfold is_complete
    rw [completedDays_mark_other cp day source s2 hs]
    constructor
    · exact Or.inl
    · rintro (h | ⟨he, -⟩)
      · exact h
      · exact absurd he hs

lemma is_complete_applyEvent (cp : Checkpoint) (e : MarkEvent) (d s : String) :
    is_complete (applyEvent cp e) d s = true ↔
      (is_complete cp d s = true ∨ marksUnit e d s = true) := by
  cases e with
  | prescan d0 s0 exp held =>
    simp only [applyEvent, marksUnit, Bool.and_eq_true, beq_iff_eq, decide_eq_true_eq,
      Bool.not_eq_true']
    by_cases h1 : is_complete cp d0 s0 = true
    · rw [if_pos h1]
      constructor
      · exact Or.inl
      · rintro (h | ⟨⟨⟨⟨rfl, rfl⟩, -⟩, -⟩, -⟩)
        · exact h
        · exact h1
    · rw [if_neg h1]
      by_cases h2 : held = 0
      · rw [if_pos h2]
        constructor
        · exact Or.inl
        · rintro (h | ⟨⟨⟨⟨rfl, rfl⟩, hz⟩, -⟩, -⟩)
          · exact h
          · rw [h2] at hz
            simp at hz
      · rw [if_neg h2]
        by_cases h3 : 0 ≤ exp ∧ (held : Int) ≥ exp
        · rw [if_pos h3, is_complete_mark_iff]
          constructor
          · rintro (h | ⟨rfl, rfl⟩)
            · exact Or.inl h
            · exact Or.inr ⟨⟨⟨⟨rfl, rfl⟩, by simpa using h2⟩, h3.1⟩, h3.2⟩
          · rintro (h | ⟨⟨⟨⟨rfl, rfl⟩, -⟩, -⟩, -⟩)
            · exact Or.inl h
            · exact Or.inr ⟨rfl, rfl⟩
        · rw [if_neg h3]
          constructor
          · exact Or.inl
          · rintro (h | ⟨⟨⟨⟨rfl, rfl⟩, -⟩, ha⟩, hb⟩)
            · exact h
            · exact absurd ⟨ha, hb⟩ h3
  | fetchUnit d0 s0 exp held =>
    simp only [applyEvent, marksUnit, Bool.and_eq_true, beq_iff_eq, decide_eq_true_eq]
    by_cases h1 : is_complete cp d0 s0 = true
    · rw [if_pos h1]
      constructor
      · exact Or.inl
      · rintro (h | ⟨⟨⟨rfl, rfl⟩, -⟩, -⟩)
        · exact h
        · exact h1
    · rw [if_neg h1]
      by_cases h3 : 0 ≤ exp ∧ (held : Int) ≥ exp
      · rw [if_pos h3, is_complete_mark_iff]
        constructor
        · rintro (h | ⟨rfl, rfl⟩)
          · exact Or.inl h
          · exact Or.inr ⟨⟨⟨rfl, rfl⟩, h3.1⟩, h3.2⟩
        · rintro (h | ⟨⟨⟨rfl, rfl⟩, -⟩, -⟩)
          · exact Or.inl h
          · exact Or.inr ⟨rfl, rfl⟩
      · rw [if_neg h3]
        constructor
        · exact Or.inl
        · rintro (h | ⟨⟨⟨rfl, rfl⟩, ha⟩, hb⟩)
          · exact h
          · exact absurd ⟨ha, hb⟩ h3
  | fetchAborted d0 s0 =>
    simp only [applyEvent, marksUnit]
    simp

lemma is_complete_runEvents (evs : List MarkEvent) (cp : Checkpoint) (d s : String) :
    is_complete (runEvents cp evs) d s = true ↔
      (is_complete cp d s = true ∨ ∃ e ∈ evs, marksUnit e d s = true) := by
  induction evs generalizing cp with
  | nil => simp [runEvents]
  | cons e rest ih =>
    show is_complete (runEvents (applyEvent cp e) rest) d s = true ↔ _
    rw [ih, is_complete_applyEvent]
    simp only [List.mem_cons]
    constructor
    · rintro ((h | h) | ⟨e2, he2, hm⟩)
      · exact Or.inl h
      · exact Or.inr ⟨e, Or.inl rfl, h⟩
      · exact Or.inr ⟨e2, Or.inr he2, hm⟩
    · rintro (h | ⟨e2, (rfl | he2), hm⟩)
      · exact Or.inl (Or.inl h)
      · exact Or.inl (Or.inr hm)
      · exact Or.inr ⟨e2, he2, hm⟩

lemma is_complete_emptyCheckpoint (q day source : String) :
    is_complete (emptyCheckpoint q) day source = false := rfl

/-- C2 (amended): starting from an empty checkpoint, `is_complete` for
a (day, source) unit is true exactly when some marking decision for
that unit satisfied the guard the code applies - in the main fetch
loop `expected >= 0 and have >= expected`, in the pre-scan the same
check but only for units with a nonzero held count; a unit abandoned
by a fatal error never marks.  In particular, when every decision for
the unit carried the `-1` expected count of a failed count lookup, the
unit is never complete. -/
theorem checkpoint_completion_characterization (q : String) (evs : List MarkEvent)
    (day source : String) :
    is_complete (runEvents (emptyCheckpoint q) evs) day source =
      evs.any (fun e => marksUnit e day source)
    ∧ ((∀ e ∈ evs, expectedOf e = -1) →
        is_complete (runEvents (emptyCheckpoint q) evs) day source = false) := by
  have hchar := is_complete_runEvents evs (emptyCheckpoint q) day source
  rw [is_complete_emptyCheckpoint] at hchar
  simp only [Bool.false_eq_true, false_or] at hchar
  constructor
  · rw [Bool.eq_iff_iff, hchar, List.any_eq_true]
  · intro hneg
    rw [Bool.eq_false_iff, ne_eq, hchar]
    rintro ⟨e, he, hm⟩
    have hexp := hneg e he
    cases e with
    | prescan d0 s0 exp held =>
      simp only [expectedOf] at hexp
      subst hexp
      simp [marksUnit] at hm
    | fetchUnit d0 s0 exp held =>
      simp only [expectedOf] at hexp
      subst hexp
      simp [marksUnit] at hm
    | fetchAborted d0 s0 =>
      simp [marksUnit] at hm

/-- Witness for the C2 characterization: a unit whose count lookups
failed (`-1`) both in the main loop and the pre-scan stays incomplete,
and the marking trace matches the guard predicate. -/
theorem checkpoint_completion_characterization_witness :
    is_complete
      (runEvents (emptyCheckpoint "gaza")
        [MarkEvent.fetchUnit "2026-01-01" "nytimes.com" (-1) 5,
         MarkEvent.prescan "2026-01-01" "nytimes.com" (-1) 5])
      "2026-01-01" "nytimes.com" = false :=
  (checkpoint_completion_characterization "gaza"
    [MarkEvent.fetchUnit "2026-01-01" "nytimes.com" (-1) 5,
     MarkEvent.prescan "2026-01-01" "nytimes.com" (-1) 5]
    "2026-01-01" "nytimes.com").2 (by decide)

/-- C2 counterexample: the pre-scan inspects a unit with expected
count `0` and `0` held records, so the claimed completion condition
(`expected >= 0` and held `>= expected`) holds at that point; the
pre-scan nevertheless skips units with no held records, and when the
unit's own fetch then aborts, `is_complete` remains false. -/
theorem checkpoint_condition_counterexample :
    ([MarkEvent.prescan "2026-01-01" "nytimes.com" 0 0,
      MarkEvent.fetchAborted "2026-01-01" "nytimes.com"].any
        (fun e => specCompletionTrigger e "2026-01-01" "nytimes.com")) = true
    ∧ is_complete
        (runEvents (emptyCheckpoint "gaza")
          [MarkEvent.prescan "2026-01-01" "nytimes.com" 0 0,
           MarkEvent.fetchAborted "2026-01-01" "nytimes.com"])
        "2026-01-01" "nytimes.com" = false := by
  exact ⟨by decide, rfl⟩

/-- C3: loading a persisted checkpoint whose stored query hash is
present (truthy) and differs from the hash of the configured query
discards everything: the result is the fresh empty checkpoint carrying
the current query hash, and no unit is complete in it. -/
theorem load_checkpoint_query_change (d : StoredCheckpoint) (query h : String)
    (hstored : d.query_hash = some h) (hne0 : h ≠ "")
    (hne : h ≠ get_query_hash query) :
    load_checkpoint (some d) query =
      { completed := [], expected_counts := [], query_hash := get_query_hash query }
    ∧ ∀ day source, is_complete (load_checkpoint (some d) query) day source = false := by
  have hload : load_checkpoint (some d) query =
      { completed := [], expected_counts := [], query_hash := get_query_hash query } := by
    simp only [load_checkpoint, hstored, Option.getD_some]
    rw [if_pos ⟨hne0, hne⟩]
  refine ⟨hload, fun day source => ?_⟩
  rw [hload]
  rfl

set_option maxRecDepth 20000 in
/-- Witness for C3: a stored checkpoint with a completed unit and a
stale hash is discarded when loaded against the query `"gaza"`. -/
theorem load_checkpoint_query_change_witness :
    load_checkpoint
        (some { completed := [("nytimes.com", ["2026-01-01"])], expected_counts := [],
                query_hash := some "ffffffffffff" }) "gaza" =
      { completed := [], expected_counts := [], query_hash := get_query_hash "gaza" }
    ∧ is_complete
        (load_checkpoint
          (some { completed := [("nytimes.com", ["2026-01-01"])], expected_counts := [],
                  query_hash := some "ffffffffffff" }) "gaza")
        "2026-01-01" "nytimes.com" = false := by
  have h := load_checkpoint_query_change
    { completed := [("nytimes.com", ["2026-01-01"])], expected_counts := [],
      query_hash := some "ffffffffffff" } "gaza" "ffffffffffff" rfl (by decide) (by decide)
  exact ⟨h.1, h.2 "2026-01-01" "nytimes.com"⟩

/-- C4: behaviour of the strict relevance filter, reading the three
clauses together (so that clause (a) describes the situation in which
the only keyword evidence is a single description occurrence): with no
strict keywords the filter always passes; it rejects when no keyword
occurs in the title and every keyword occurs at most once - some
keyword exactly once - in the description; it accepts when some
keyword occurs twice or more in the description, and when some keyword
occurs in the title regardless of the description.  All matching is
case-insensitive substring matching, occurrences counted as Python
`str.count`. -/
theorem strict_filter_boundary (e : Entry) (kws : List String) :
    (kws = [] → is_topic_relevant e kws = true)
    ∧ ((∀ kw ∈ kws,
          containsSub (lowerChars (e.title.getD "").data) (lowerChars kw.data) = false) →
       (∀ kw ∈ kws,
          countSub (lowerChars (e.description.getD "").data) (lowerChars kw.data) ≤ 1) →
       (∃ kw ∈ kws,
          countSub (lowerChars (e.description.getD "").data) (lowerChars kw.data) = 1) →
       is_topic_relevant e kws = false)
    ∧ ((∃ kw ∈ kws,
          countSub (lowerChars (e.description.getD "").data) (lowerChars kw.data) ≥ 2) →
       is_topic_relevant e kws = true)
    ∧ ((∃ kw ∈ kws,
          containsSub (lowerChars (e.title.getD "").data) (lowerChars kw.data) = true) →
       is_topic_relevant e kws = true) := by
  refine ⟨?_, ?_, ?_, ?_⟩
  · intro h
    subst h
    rfl
  · intro htitle hdesc hone
    obtain ⟨kw0, hkw0, -⟩ := hone
    have hne : kws.isEmpty = false := by
      cases kws with
      | nil => cases hkw0
      | cons a l => rfl
    unfold is_topic_relevant
    rw [hne]
    simp only [Bool.false_eq_true, if_false, List.any_eq_false]
    intro kw hkw
    have h1 := htitle kw hkw
    have h2 := hdesc kw hkw
    simp only [h1, Bool.false_or, Bool.not_eq_true, decide_eq_false_iff_not, ge_iff_le, not_le]
    omega
  · rintro ⟨kw, hkw, hcount⟩
    have hne : kws.isEmpty = false := by
      cases kws with
      | nil => cases hkw
      | cons a l => rfl
    unfold is_topic_relevant
    rw [hne]
    simp only [Bool.false_eq_true, if_false, List.any_eq_true]
    exact ⟨kw, hkw, by simp [hcount]⟩
  · rintro ⟨kw, hkw, htitle⟩
    have hne : kws.isEmpty = false := by
      cases kws with
      | nil => cases hkw
      | cons a l => rfl
    unfold is_topic_relevant
    rw [hne]
    simp only [Bool.false_eq_true, if_false, List.any_eq_true]
    exact ⟨kw, hkw, by simp [htitle]⟩

/-- Witness for C4 at the spec's own scenario: with strict keyword
`"greenland"`, a record with two description occurrences is accepted,
one with a single description occurrence and a clean title is
rejected, and one with the keyword in the title is accepted. -/
theorem strict_filter_boundary_witness :
    is_topic_relevant
        { media_url := none, title := some "Daily roundup",
          description := some "Greenland Greenland trade deal advances",
          publish_date := none, url := "u1", my_topic := "alpha" } ["greenland"] = true
    ∧ is_topic_relevant
        { media_url := none, title := some "World news",
          description := some "Greenland trade deal advances",
          publish_date := none, url := "u2", my_topic := "alpha" } ["greenland"] = false
    ∧ is_topic_relevant
        { media_url := none, title := some "Greenland today",
          description := some "no keywords here",
          publish_date := none, url := "u3", my_topic := "alpha" } ["greenland"] = true := by
  refine ⟨?_, ?_, ?_⟩
  · exact (strict_filter_boundary _ ["greenland"]).2.2.1
      ⟨"greenland", by decide, by decide⟩
  · exact (strict_filter_boundary _ ["greenland"]).2.1
      (by decide) (by decide) ⟨"greenland", by decide, by decide⟩
  · exact (strict_filter_boundary _ ["greenland"]).2.2.2
      ⟨"greenland", by decide, by decide⟩

/-! ## Fetch-loop lemmas -/

lemma iterStories_replicate_error (m : String) (hm : isTransientError m = true) :
    ∀ (n c : Nat) (rest : List PageRes),
      iterStories c (List.replicate n (PageRes.error m) ++ rest) =
        ((iterStories (c + n) rest).1,
         (List.range n).map (fun i => min (INITIAL_WAIT * 2 ^ (c + i)) MAX_WAIT) ++
           (iterStories (c + n) rest).2.1,
         (iterStories (c + n) rest).2.2) := by
  intro n
  induction n with
  | zero =>
    intro c rest
    simp [List.replicate]
  | succ k ih =>
    intro c rest
    rw [List.replicate_succ, List.cons_append]
    simp only [iterStories, hm, if_true]
    rw [ih (c + 1) rest]
    have harith : c + 1 + k = c + (k + 1) := by omega
    rw [harith]
    have hrange : (List.range (k + 1)).map (fun i => min (INITIAL_WAIT * 2 ^ (c + i)) MAX_WAIT) =
        min (INITIAL_WAIT * 2 ^ c) MAX_WAIT ::
          (List.range k).map (fun i => min (INITIAL_WAIT * 2 ^ (c + 1 + i)) MAX_WAIT) := by
      rw [List.range_succ_eq_map, List.map_cons, List.map_map]
      refine congrArg₂ _ (by norm_num) ?_
      refine List.map_congr_left fun i _ => ?_
      have : c + (i + 1) = c + 1 + i := by omega
      simp [Function.comp, this]
    rw [hrange]
    rfl

lemma iterStories_ok_last (c : Nat) (q : List Story) :
    (iterStories c [PageRes.ok q none]).2.1 = [] := by
  cases hq : q.isEmpty <;> simp [iterStories, hq]

/-- C8: inside the paginated fetch loop, an exception classified
transient (`429`, connection, timeout, `Expecting value`) is retried
without limit, the nth consecutive failure sleeping
`min(INITIAL_WAIT * 2 ** (n - 1), MAX_WAIT)` seconds with the counter
reset by a successful page; any other exception stops the loop at once
and propagates, which leaves the current unit's checkpoint state
untouched while the outer loop continues with the next unit. -/
theorem fetch_retry_backoff_abort
    (m mf msg : String) (n k : Nat) (p q : List Story) (t : String)
    (cp : Checkpoint) (ids : List String) (u : FetchUnit) (us : List FetchUnit)
    (c : Nat) (rest : List PageRes)
    (hm : isTransientError m = true) (hp : p ≠ [])
    (hmf : isTransientError mf = false)
    (hu : (iterStories 0 u.script).2.2 = some msg) :
    (iterStories 0
        (List.replicate n (PageRes.error m) ++
          PageRes.ok p (some t) ::
            (List.replicate k (PageRes.error m) ++ [PageRes.ok q none]))).2.1 =
      ((List.range n).map fun i => min (INITIAL_WAIT * 2 ^ i) MAX_WAIT) ++
        ((List.range k).map fun i => min (INITIAL_WAIT * 2 ^ i) MAX_WAIT)
    ∧ iterStories c (PageRes.error mf :: rest) = ([], [], some mf)
    ∧ (processUnit cp ids u).1 = cp
    ∧ processUnits cp ids (u :: us) = processUnits cp (processUnit cp ids u).2 us := by
  have hpe : p.isEmpty = false := by
    cases p with
    | nil => exact absurd rfl hp
    | cons a l => rfl
  have habort : (processUnit cp ids u).1 = cp := by
    by_cases hc : is_complete cp u.day u.source = true
    · simp [processUnit, hc]
    · simp only [processUnit, hc, Bool.false_eq_true, if_false]
      rw [hu]
  refine ⟨?_, ?_, habort, ?_⟩
  · rw [iterStories_replicate_error m hm n 0]
    simp only [iterStories, hpe, Bool.false_eq_true, if_false]
    rw [iterStories_replicate_error m hm k 0]
    simp only [iterStories_ok_last]
    simp [Nat.zero_add]
  · simp [iterStories, hmf]
  · show processUnits (processUnit cp ids u).1 (processUnit cp ids u).2 us = _
    rw [habort]

/-- Witness for C8: two transient failures back off 40 then 80
seconds, a success resets the counter so the next failure waits 40
again; the non-transient message `"boom"` aborts at once, and a unit
whose script raises it leaves the checkpoint unchanged while the outer
loop proceeds. -/
theorem fetch_retry_backoff_abort_witness :
    (iterStories 0
        (List.replicate 2 (PageRes.error "HTTP 429 too many requests") ++
          PageRes.ok [⟨"s1"⟩] (some "tok") ::
            (List.replicate 1 (PageRes.error "HTTP 429 too many requests") ++
              [PageRes.ok [⟨"s2"⟩] none]))).2.1 =
      ((List.range 2).map fun i => min (INITIAL_WAIT * 2 ^ i) MAX_WAIT) ++
        ((List.range 1).map fun i => min (INITIAL_WAIT * 2 ^ i) MAX_WAIT)
    ∧ iterStories 0 [PageRes.error "boom"] = ([], [], some "boom")
    ∧ (processUnit (emptyCheckpoint "gaza") []
        { day := "2026-01-01", source := "nytimes.com",
          script := [PageRes.error "boom"], expected := 5 }).1 = emptyCheckpoint "gaza"
    ∧ processUnits (emptyCheckpoint "gaza") []
        [{ day := "2026-01-01", source := "nytimes.com",
           script := [PageRes.error "boom"], expected := 5 },
         { day := "2026-01-02", source := "nytimes.com",
           script := [PageRes.ok [⟨"s3"⟩] none], expected := 1 }] =
      processUnits (emptyCheckpoint "gaza")
        (processUnit (emptyCheckpoint "gaza") []
          { day := "2026-01-01", source := "nytimes.com",
            script := [PageRes.error "boom"], expected := 5 }).2
        [{ day := "2026-01-02", source := "nytimes.com",
           script := [PageRes.ok [⟨"s3"⟩] none], expected := 1 }] := by
  have h := fetch_retry_backoff_abort "HTTP 429 too many requests" "boom" "boom" 2 1
    [⟨"s1"⟩] [⟨"s2"⟩] "tok" (emptyCheckpoint "gaza") []
    { day := "2026-01-01", source := "nytimes.com",
      script := [PageRes.error "boom"], expected := 5 }
    [{ day := "2026-01-02", source := "nytimes.com",
       script := [PageRes.ok [⟨"s3"⟩] none], expected := 1 }]
    0 []
    (by decide) (by decide) (by decide) (by decide)
  exact ⟨h.1, by rw [h.2.1], h.2.2.1, h.2.2.2⟩

/-! ## String and key order lemmas -/

lemma char_toNat_inj {a b : Char} (h : a.toNat = b.toNat) : a = b := by
  rw [← Char.ofNat_toNat a, ← Char.ofNat_toNat b, h]

lemma strLt_irrefl : ∀ l : List Char, strLt l l = false
  | [] => rfl
  | a :: as => by
    simp only [strLt, Nat.lt_irrefl, if_false]
    exact strLt_irrefl as

lemma strLt_trans : ∀ a b c : List Char,
    strLt a b = true → strLt b c = true → strLt a c = true
  | _, b, [], _, h2 => by
    cases b with
    | nil => simp [strLt] at h2
    | cons x xs => simp [strLt] at h2
  | [], _ :: _, _ :: _, _, _ => rfl
  | _ :: _, [], _ :: _, h1, _ => by simp [strLt] at h1
  | a :: as, b :: bs, c :: cs, h1, h2 => by
    simp only [strLt] at h1 h2 ⊢
    by_cases hab : a.toNat < b.toNat
    · by_cases hbc : b.toNat < c.toNat
      · rw [if_pos (by omega)]
      · rw [if_neg hbc] at h2
        by_cases hcb : c.toNat < b.toNat
        · rw [if_pos hcb] at h2
          cases h2
        · have : b.toNat = c.toNat := by omega
          rw [if_pos (by omega)]
    · rw [if_neg hab] at h1
      by_cases hba : b.toNat < a.toNat
      · rw [if_pos hba] at h1
        cases h1
      · have heq : a.toNat = b.toNat := by omega
        rw [if_neg hba] at h1
        by_cases hbc : b.toNat < c.toNat
        · rw [if_pos (by omega)]
        · rw [if_neg hbc] at h2
          by_cases hcb : c.toNat < b.toNat
          · rw [if_pos hcb] at h2
            cases h2
          · rw [if_neg hcb] at h2
            rw [if_neg (by omega), if_neg (by omega)]
            exact strLt_trans as bs cs h1 h2

lemma strLt_trichotomy : ∀ a b : List Char,
    strLt a b = true ∨ a = b ∨ strLt b a = true
  | [], [] => Or.inr (Or.inl rfl)
  | [], _ :: _ => Or.inl rfl
  | _ :: _, [] => Or.inr (Or.inr rfl)
  | a :: as, b :: bs => by
    by_cases hab : a.toNat < b.toNat
    · exact Or.inl (by simp [strLt, hab])
    · by_cases hba : b.toNat < a.toNat
      · exact Or.inr (Or.inr (by simp [strLt, hba]))
      · have heq : a = b := char_toNat_inj (by omega)
        subst heq
        rcases strLt_trichotomy as bs with h | h | h
        · exact Or.inl (by simp [strLt, h])
        · exact Or.inr (Or.inl (by rw [h]))
        · exact Or.inr (Or.inr (by simp [strLt, h]))

lemma strLt_asymm {a b : List Char} (h : strLt a b = true) : strLt b a = false := by
  by_contra hcon
  rw [Bool.not_eq_false] at hcon
  have := strLt_trans a b a h hcon
  rw [strLt_irrefl] at this
  cases this

lemma keyLt_iff (k1 k2 : List Char × List Char) :
    keyLt k1 k2 = true ↔
      (strLt k1.1 k2.1 = true ∨ (k1.1 = k2.1 ∧ strLt k1.2 k2.2 = true)) := by
  simp [keyLt, Bool.or_eq_true, Bool.and_eq_true, beq_iff_eq]

lemma keyLt_irrefl (k : List Char × List Char) : keyLt k k = false := by
  simp [keyLt, strLt_irrefl]

lemma keyLt_trans {k1 k2 k3 : List Char × List Char}
    (h1 : keyLt k1 k2 = true) (h2 : keyLt k2 k3 = true) : keyLt k1 k3 = true := by
  rw [keyLt_iff] at h1 h2 ⊢
  rcases h1 with h1 | ⟨he1, h1⟩
  · rcases h2 with h2 | ⟨he2, h2⟩
    · exact Or.inl (strLt_trans _ _ _ h1 h2)
    · exact Or.inl (he2 ▸ h1)
  · rcases h2 with h2 | ⟨he2, h2⟩
    · exact Or.inl (he1 ▸ h2)
    · exact Or.inr ⟨he1.trans he2, strLt_trans _ _ _ h1 h2⟩

lemma keyLt_trichotomy (k1 k2 : List Char × List Char) :
    keyLt k1 k2 = true ∨ k1 = k2 ∨ keyLt k2 k1 = true := by
  rcases strLt_trichotomy k1.1 k2.1 with h | h | h
  · exact Or.inl ((keyLt_iff _ _).mpr (Or.inl h))
  · rcases strLt_trichotomy k1.2 k2.2 with h2 | h2 | h2
    · exact Or.inl ((keyLt_iff _ _).mpr (Or.inr ⟨h, h2⟩))
    · exact Or.inr (Or.inl (Prod.ext h h2))
    · exact Or.inr (Or.inr ((keyLt_iff _ _).mpr (Or.inr ⟨h.symm, h2⟩)))
  · exact Or.inr (Or.inr ((keyLt_iff _ _).mpr (Or.inl h)))

lemma keyLt_asymm {k1 k2 : List Char × List Char} (h : keyLt k1 k2 = true) :
    keyLt k2 k1 = false := by
  by_contra hcon
  rw [Bool.not_eq_false] at hcon
  have := keyLt_trans h hcon
  rw [keyLt_irrefl] at this
  cases this

lemma entryLe_refl (a : Entry) : entryLe a a = true := by
  simp [entryLe, keyLt_irrefl]

lemma entryLe_total (a b : Entry) : (entryLe a b || entryLe b a) = true := by
  unfold entryLe
  rcases keyLt_trichotomy (entry_sort_key a) (entry_sort_key b) with h | h | h
  · rw [keyLt_asymm h]
    simp
  · rw [h, keyLt_irrefl]
    simp
  · rw [keyLt_asymm h]
    simp

lemma entryLe_trans (a b c : Entry)
    (h1 : entryLe a b = true) (h2 : entryLe b c = true) : entryLe a c = true := by
  unfold entryLe at h1 h2 ⊢
  rw [Bool.not_eq_eq_eq_not, Bool.not_true] at h1 h2 ⊢
  by_contra hcon
  rw [Bool.not_eq_false] at hcon
  rcases keyLt_trichotomy (entry_sort_key b) (entry_sort_key c) with h | h | h
  · have := keyLt_trans h hcon
    rw [h1] at this
    cases this
  · rw [← h] at hcon
    rw [hcon] at h1
    cases h1
  · rw [h2] at h
    cases h

lemma pairwise_indexOf_lt {α : Type} [DecidableEq α] {le : α → α → Bool} {l : List α}
    (hp : l.Pairwise (fun x y => le x y = true)) (hrefl : ∀ x, le x x = true)
    {a b : α} (ha : a ∈ l) (hb : b ∈ l) (hba : le b a = false) :
    l.indexOf a < l.indexOf b := by
  have hab : a ≠ b := by
    rintro rfl
    rw [hrefl a] at hba
    cases hba
  have hia : l.indexOf a < l.length := List.indexOf_lt_length.mpr ha
  have hib : l.indexOf b < l.length := List.indexOf_lt_length.mpr hb
  by_contra hcon
  rcases Nat.lt_or_ge (l.indexOf b) (l.indexOf a) with hlt | hge
  · have := List.pairwise_iff_get.mp hp ⟨l.indexOf b, hib⟩ ⟨l.indexOf a, hia⟩ hlt
    rw [List.get_eq_getElem, List.get_eq_getElem, List.getElem_indexOf hib,
      List.getElem_indexOf hia] at this
    rw [hba] at this
    cases this
  · have heq : l.indexOf a = l.indexOf b := by omega
    have hfin : (⟨l.indexOf a, hia⟩ : Fin l.length) = ⟨l.indexOf b, hib⟩ := Fin.ext heq
    have h1 : l.get ⟨l.indexOf a, hia⟩ = a := by
      simp [List.getElem_indexOf hia]
    have h2 : l.get ⟨l.indexOf b, hib⟩ = b := by
      simp [List.getElem_indexOf hib]
    exact hab (h1.symm.trans (by rw [hfin, h2]))

lemma insertSorted_perm (x : Entry) : ∀ l : List Entry, List.Perm (insertSorted x l) (x :: l)
  | [] => List.Perm.refl _
  | y :: ys => by
    unfold insertSorted
    by_cases h : entryLe x y
    · rw [if_pos h]
    · rw [if_neg h]
      exact ((insertSorted_perm x ys).cons y).trans (List.Perm.swap x y ys)

lemma sortEntries_perm : ∀ l : List Entry, List.Perm (sortEntries l) l
  | [] => List.Perm.refl _
  | a :: l => (insertSorted_perm a (sortEntries l)).trans ((sortEntries_perm l).cons a)

lemma mem_sortEntries {a : Entry} {l : List Entry} : a ∈ sortEntries l ↔ a ∈ l :=
  (sortEntries_perm l).mem_iff

lemma pairwise_insertSorted (x : Entry) :
    ∀ l : List Entry, l.Pairwise (fun a b => entryLe a b = true) →
      (insertSorted x l).Pairwise (fun a b => entryLe a b = true)
  | [], _ => List.pairwise_singleton _ x
  | y :: ys, hp => by
    unfold insertSorted
    obtain ⟨hy, hys⟩ := List.pairwise_cons.mp hp
    by_cases h : entryLe x y
    · rw [if_pos h]
      refine List.pairwise_cons.mpr ⟨?_, hp⟩
      intro z hz
      rcases List.mem_cons.mp hz with rfl | hz2
      · exact h
      · exact entryLe_trans x y z h (hy z hz2)
    · rw [if_neg h]
      refine List.pairwise_cons.mpr ⟨?_, pairwise_insertSorted x ys hys⟩
      intro z hz
      have hz3 := (insertSorted_perm x ys).mem_iff.mp hz
      rcases List.mem_cons.mp hz3 with rfl | hz2
      · have htot := entryLe_total z y
        rcases (Bool.or_eq_true _ _).mp htot with h2 | h2
        · exact absurd h2 h
        · exact h2
      · exact hy z hz2

lemma pairwise_sortEntries : ∀ l : List Entry,
    (sortEntries l).Pairwise (fun a b => entryLe a b = true)
  | [] => List.Pairwise.nil
  | a :: l => pairwise_insertSorted a (sortEntries l) (pairwise_sortEntries l)

lemma sortEntries_lt {a b : Entry} {l : List Entry}
    (ha : a ∈ l) (hb : b ∈ l)
    (h : keyLt (entry_sort_key a) (entry_sort_key b) = true) :
    (sortEntries l).indexOf a < (sortEntries l).indexOf b := by
  refine pairwise_indexOf_lt (pairwise_sortEntries l) entryLe_refl
    (mem_sortEntries.mpr ha) (mem_sortEntries.mpr hb) ?_
  unfold entryLe
  rw [h]
  rfl

/-- C6: among records sharing a `publish_date` (including the case of
two records with no date), the relative order after sorting with
`entry_sort_key` is exactly the lexicographic order of the MD5 hex
digests of their URLs - in particular it does not depend on where the
two records sit in the input list - and inserting any further record
into the input leaves their relative order unchanged. -/
theorem sort_same_day_hash_determined (a b c : Entry) (l : List Entry)
    (hd : a.publish_date = b.publish_date)
    (hh : md5Hex a.url ≠ md5Hex b.url)
    (ha : a ∈ l) (hb : b ∈ l) :
    ((sortEntries l).indexOf a < (sortEntries l).indexOf b ↔
       strLt (md5Hex a.url).data (md5Hex b.url).data = true)
    ∧ ((sortEntries l).indexOf a < (sortEntries l).indexOf b ↔
       (sortEntries (l ++ [c])).indexOf a < (sortEntries (l ++ [c])).indexOf b) := by
  have hfst : (entry_sort_key a).1 = (entry_sort_key b).1 := by
    simp [entry_sort_key, hd]
  have hdata : (md5Hex a.url).data ≠ (md5Hex b.url).data := fun h => hh (String.ext h)
  rcases strLt_trichotomy (md5Hex a.url).data (md5Hex b.url).data with hAB | hEq | hBA
  · have hk : keyLt (entry_sort_key a) (entry_sort_key b) = true :=
      (keyLt_iff _ _).mpr (Or.inr ⟨hfst, hAB⟩)
    have p1 := sortEntries_lt ha hb hk
    have p2 := sortEntries_lt (l := l ++ [c])
      (List.mem_append_left _ ha) (List.mem_append_left _ hb) hk
    exact ⟨iff_of_true p1 hAB, iff_of_true p1 p2⟩
  · exact absurd hEq hdata
  · have hk : keyLt (entry_sort_key b) (entry_sort_key a) = true :=
      (keyLt_iff _ _).mpr (Or.inr ⟨hfst.symm, hBA⟩)
    have p1 := sortEntries_lt hb ha hk
    have p2 := sortEntries_lt (l := l ++ [c])
      (List.mem_append_left _ hb) (List.mem_append_left _ ha) hk
    have nAB : ¬strLt (md5Hex a.url).data (md5Hex b.url).data = true := by
      rw [strLt_asymm hBA]
      simp
    exact ⟨iff_of_false (by omega) nAB, iff_of_false (by omega) (by omega)⟩

/-- Witness for C6 at two same-day records listed b-first: their
sorted order agrees with the order of their URL hashes and survives
the insertion of a third record. -/
theorem sort_same_day_hash_determined_witness :
    ((sortEntries
        [{ media_url := none, title := none, description := none,
           publish_date := some "2026-01-10", url := "https://b", my_topic := "t" },
         { media_url := none, title := none, description := none,
           publish_date := some "2026-01-10", url := "https://a", my_topic := "t" }]).indexOf
        { media_url := none, title := none, description := none,
          publish_date := some "2026-01-10", url := "https://a", my_topic := "t" } <
      (sortEntries
        [{ media_url := none, title := none, description := none,
           publish_date := some "2026-01-10", url := "https://b", my_topic := "t" },
         { media_url := none, title := none, description := none,
           publish_date := some "2026-01-10", url := "https://a", my_topic := "t" }]).indexOf
        { media_url := none, title := none, description := none,
          publish_date := some "2026-01-10", url := "https://b", my_topic := "t" } ↔
      strLt (md5Hex "https://a").data (md5Hex "https://b").data = true)
    ∧ ((sortEntries
        [{ media_url := none, title := none, description := none,
           publish_date := some "2026-01-10", url := "https://b", my_topic := "t" },
         { media_url := none, title := none, description := none,
           publish_date := some "2026-01-10", url := "https://a", my_topic := "t" }]).indexOf
        { media_url := none, title := none, description := none,
          publish_date := some "2026-01-10", url := "https://a", my_topic := "t" } <
      (sortEntries
        [{ media_url := none, title := none, description := none,
           publish_date := some "2026-01-10", url := "https://b", my_topic := "t" },
         { media_url := none, title := none, description := none,
           publish_date := some "2026-01-10", url := "https://a", my_topic := "t" }]).indexOf
        { media_url := none, title := none, description := none,
          publish_date := some "2026-01-10", url := "https://b", my_topic := "t" } ↔
      (sortEntries
        ([{ media_url := none, title := none, description := none,
            publish_date := some "2026-01-10", url := "https://b", my_topic := "t" },
          { media_url := none, title := none, description := none,
            publish_date := some "2026-01-10", url := "https://a", my_topic := "t" }] ++
         [{ media_url := none, title := none, description := none,
            publish_date := some "2026-01-09", url := "https://c", my_topic := "t" }])).indexOf
        { media_url := none, title := none, description := none,
          publish_date := some "2026-01-10", url := "https://a", my_topic := "t" } <
      (sortEntries
        ([{ media_url := none, title := none, description := none,
            publish_date := some "2026-01-10", url := "https://b", my_topic := "t" },
          { media_url := none, title := none, description := none,
            publish_date := some "2026-01-10", url := "https://a", my_topic := "t" }] ++
         [{ media_url := none, title := none, description := none,
            publish_date := some "2026-01-09", url := "https://c", my_topic := "t" }])).indexOf
        { media_url := none, title := none, description := none,
          publish_date := some "2026-01-10", url := "https://b", my_topic := "t" }) :=
  sort_same_day_hash_determined
    { media_url := none, title := none, description := none,
      publish_date := some "2026-01-10", url := "https://a", my_topic := "t" }
    { media_url := none, title := none, description := none,
      publish_date := some "2026-01-10", url := "https://b", my_topic := "t" }
    { media_url := none, title := none, description := none,
      publish_date := some "2026-01-09", url := "https://c", my_topic := "t" }
    [{ media_url := none, title := none, description := none,
       publish_date := some "2026-01-10", url := "https://b", my_topic := "t" },
     { media_url := none, title := none, description := none,
       publish_date := some "2026-01-10", url := "https://a", my_topic := "t" }]
    rfl (by decide) (by decide) (by decide)

/-! ## Digit inversion lemmas -/

lemma digit_eq_cases (c : Char) (h : c.isDigit = true) :
    c = '0' ∨ c = '1' ∨ c = '2' ∨ c = '3' ∨ c = '4' ∨ c = '5' ∨ c = '6' ∨ c = '7' ∨
      c = '8' ∨ c = '9' := by
  simp only [Char.isDigit, Bool.and_eq_true, decide_eq_true_eq] at h
  have h1 : 48 ≤ c.toNat := h.1
  have h2 : c.toNat ≤ 57 := h.2
  have hc : c.toNat = 48 ∨ c.toNat = 49 ∨ c.toNat = 50 ∨ c.toNat = 51 ∨ c.toNat = 52 ∨
      c.toNat = 53 ∨ c.toNat = 54 ∨ c.toNat = 55 ∨ c.toNat = 56 ∨ c.toNat = 57 := by
    omega
  have hval := Char.ofNat_toNat c
  rcases hc with h | h | h | h | h | h | h | h | h | h <;>
    rw [h] at hval <;> rw [← hval] <;> decide

lemma invDigit_compare (a b : Char) (ha : a.isDigit = true) (hb : b.isDigit = true) :
    ((invDigit a).toNat < (invDigit b).toNat ↔ b.toNat < a.toNat)
    ∧ ((invDigit b).toNat < (invDigit a).toNat ↔ a.toNat < b.toNat) := by
  rcases digit_eq_cases a ha with rfl | rfl | rfl | rfl | rfl | rfl | rfl | rfl | rfl | rfl <;>
    rcases digit_eq_cases b hb with rfl | rfl | rfl | rfl | rfl | rfl | rfl | rfl | rfl | rfl <;>
    exact ⟨by decide, by decide⟩

lemma digit_ne_zero_gt (a : Char) (ha : a.isDigit = true) (hz : a ≠ '0') :
    48 < a.toNat := by
  rcases digit_eq_cases a ha with rfl | rfl | rfl | rfl | rfl | rfl | rfl | rfl | rfl | rfl
  · exact absurd rfl hz
  all_goals decide

/-- C7 conjunct (i): digit inversion turns ascending lexicographic
comparison into descending comparison on same-shaped strings. -/
lemma strLt_invertChars : ∀ s t : List Char, sameShape s t = true →
    strLt (invertChars s) (invertChars t) = strLt t s
  | [], [], _ => rfl
  | [], _ :: _, h => by simp [sameShape] at h
  | _ :: _, [], h => by simp [sameShape] at h
  | a :: as, b :: bs, h => by
    simp only [sameShape, Bool.and_eq_true, Bool.or_eq_true, Bool.not_eq_true',
      beq_iff_eq] at h
    obtain ⟨hhead, htail⟩ := h
    rcases hhead with ⟨hda, hdb⟩ | ⟨⟨hda, hdb⟩, heq⟩
    · simp only [invertChars, List.map_cons, hda, hdb, if_true]
      have hcmp := invDigit_compare a b hda hdb
      by_cases h1 : b.toNat < a.toNat
      · have h2 : (invDigit a).toNat < (invDigit b).toNat := hcmp.1.mpr h1
        simp [strLt, h1, h2]
      · by_cases h3 : a.toNat < b.toNat
        · have h4 : (invDigit b).toNat < (invDigit a).toNat := hcmp.2.mpr h3
          have h5 : ¬(invDigit a).toNat < (invDigit b).toNat := by
            rw [hcmp.1]
            exact h1
          simp [strLt, h1, h3, h4, h5]
        · have h4 : ¬(invDigit b).toNat < (invDigit a).toNat := by
            rw [hcmp.2]
            exact h3
          have h5 : ¬(invDigit a).toNat < (invDigit b).toNat := by
            rw [hcmp.1]
            exact h1
          simp only [strLt, h1, h3, h4, h5, if_false]
          exact strLt_invertChars as bs htail
    · subst heq
      simp only [invertChars, List.map_cons, hda, hdb, if_false]
      simp only [strLt, Nat.lt_irrefl, if_false]
      have := strLt_invertChars as bs htail
      simp only [invertChars] at this
      exact this

/-- Sentinel minimality: against a same-shaped string whose digits are
all `'0'`, any distinct string compares strictly greater. -/
lemma strLt_zero_sentinel : ∀ s t : List Char, sameShape s t = true →
    (∀ c ∈ t, c.isDigit = true → c = '0') → s ≠ t → strLt t s = true
  | [], [], _, _, hne => absurd rfl hne
  | [], _ :: _, h, _, _ => by simp [sameShape] at h
  | _ :: _, [], h, _, _ => by simp [sameShape] at h
  | a :: as, b :: bs, h, hzero, hne => by
    simp only [sameShape, Bool.and_eq_true, Bool.or_eq_true, Bool.not_eq_true',
      beq_iff_eq] at h
    obtain ⟨hhead, htail⟩ := h
    rcases hhead with ⟨hda, hdb⟩ | ⟨⟨hda, hdb⟩, heq⟩
    · have hb0 : b = '0' := hzero b (List.mem_cons_self b bs) hdb
      subst hb0
      by_cases ha0 : a = '0'
      · subst ha0
        have hne2 : as ≠ bs := fun he => hne (by rw [he])
        simp only [strLt, Nat.lt_irrefl, if_false]
        exact strLt_zero_sentinel as bs htail
          (fun c hc hd => hzero c (List.mem_cons_of_mem _ hc) hd) hne2
      · have hgt : 48 < a.toNat := digit_ne_zero_gt a hda ha0
        have h0 : ('0').toNat = 48 := rfl
        simp [strLt, h0, hgt]
    · subst heq
      have hne2 : as ≠ bs := fun he => hne (by rw [he])
      simp only [strLt, Nat.lt_irrefl, if_false]
      exact strLt_zero_sentinel as bs htail
        (fun c hc hd => hzero c (List.mem_cons_of_mem _ hc) hd) hne2

/-- C7: digit inversion reverses lexicographic comparison on
same-shaped ISO dates, so `entry_sort_key` puts more recent dates
first; a record missing its `publish_date` gets the `"0000-00-00"`
sentinel as primary key, and therefore sorts after every record dated
with a same-shaped date other than the sentinel itself. -/
theorem sort_inverted_dates_sentinel :
    (∀ s t : List Char, sameShape s t = true →
      strLt (invertChars s) (invertChars t) = strLt t s)
    ∧ (∀ e : Entry, e.publish_date = none →
        entry_sort_key e = (invertChars "0000-00-00".data, (md5Hex e.url).data))
    ∧ (∀ (a b : Entry) (l : List Entry) (ds : String),
        a.publish_date = some ds → sameShape ds.data "0000-00-00".data = true →
        ds ≠ "0000-00-00" → b.publish_date = none →
        a ∈ l → b ∈ l →
        (sortEntries l).indexOf a < (sortEntries l).indexOf b) := by
  refine ⟨strLt_invertChars, ?_, ?_⟩
  · intro e he
    simp [entry_sort_key, he]
  · intro a b l ds ha hshape hds hb hal hbl
    have hdata : ds.data ≠ "0000-00-00".data := fun hh => hds (String.ext hh)
    have hk : keyLt (entry_sort_key a) (entry_sort_key b) = true := by
      rw [keyLt_iff]
      left
      show strLt (invertChars (a.publish_date.getD "0000-00-00").data)
        (invertChars (b.publish_date.getD "0000-00-00").data) = true
      rw [ha, hb, Option.getD_some, Option.getD_none]
      rw [strLt_invertChars _ _ hshape]
      exact strLt_zero_sentinel ds.data "0000-00-00".data hshape (by decide) hdata
    exact sortEntries_lt hal hbl hk

/-- Witness for C7: inverted comparison of two concrete dates reverses
their order, an undated record's key carries the sentinel, and a dated
record sorts before the undated one even when listed after it. -/
theorem sort_inverted_dates_sentinel_witness :
    strLt (invertChars "2026-01-10".data) (invertChars "2025-12-31".data) =
      strLt "2025-12-31".data "2026-01-10".data
    ∧ entry_sort_key
        { media_url := none, title := none, description := none,
          publish_date := none, url := "https://u", my_topic := "t" } =
      (invertChars "0000-00-00".data, (md5Hex "https://u").data)
    ∧ (sortEntries
        [{ media_url := none, title := none, description := none,
           publish_date := none, url := "https://u", my_topic := "t" },
         { media_url := none, title := none, description := none,
           publish_date := some "2026-01-10", url := "https://d", my_topic := "t" }]).indexOf
        { media_url := none, title := none, description := none,
          publish_date := some "2026-01-10", url := "https://d", my_topic := "t" } <
      (sortEntries
        [{ media_url := none, title := none, description := none,
           publish_date := none, url := "https://u", my_topic := "t" },
         { media_url := none, title := none, description := none,
           publish_date := some "2026-01-10", url := "https://d", my_topic := "t" }]).indexOf
        { media_url := none, title := none, description := none,
          publish_date := none, url := "https://u", my_topic := "t" } :=
  ⟨sort_inverted_dates_sentinel.1 "2026-01-10".data "2025-12-31".data (by decide),
   sort_inverted_dates_sentinel.2.1
     { media_url := none, title := none, description := none,
       publish_date := none, url := "https://u", my_topic := "t" } rfl,
   sort_inverted_dates_sentinel.2.2
     { media_url := none, title := none, description := none,
       publish_date := some "2026-01-10", url := "https://d", my_topic := "t" }
     { media_url := none, title := none, description := none,
       publish_date := none, url := "https://u", my_topic := "t" }
     [{ media_url := none, title := none, description := none,
        publish_date := none, url := "https://u", my_topic := "t" },
      { media_url := none, title := none, description := none,
        publish_date := some "2026-01-10", url := "https://d", my_topic := "t" }]
     "2026-01-10" rfl (by decide) (by decide) rfl (by decide) (by decide)⟩

/-! ## Word-splitting lemmas -/

lemma splitWsAux_congr : ∀ (fuel : Nat) (l : List Char), l.length ≤ fuel →
    splitWsAux fuel l = splitWs l := by
  intro fuel
  induction fuel using Nat.strong_induction_on with
  | _ n ih =>
    intro l hl
    cases l with
    | nil => cases n <;> rfl
    | cons c rest =>
      cases n with
      | zero => simp at hl
      | succ k =>
        have hr : rest.length ≤ k := by
          simp only [List.length_cons] at hl
          omega
        show splitWsAux (k + 1) (c :: rest) = splitWsAux (rest.length + 1) (c :: rest)
        simp only [splitWsAux]
        by_cases hws : c.isWhitespace
        · rw [if_pos hws, if_pos hws, ih k (by omega) rest hr]
          rfl
        · rw [if_neg hws, if_neg hws]
          have hdrop := (List.dropWhile_sublist (l := rest)
            (fun x => !x.isWhitespace)).length_le
          rw [ih k (by omega) _ (by omega), ih rest.length (by omega) _ (by omega)]

lemma splitWs_cons_ws {c : Char} (rest : List Char) (h : c.isWhitespace = true) :
    splitWs (c :: rest) = splitWs rest := by
  show splitWsAux (rest.length + 1) (c :: rest) = _
  simp only [splitWsAux, h, if_true]
  exact splitWsAux_congr rest.length rest (Nat.le_refl _)

lemma splitWs_cons_nws {c : Char} (rest : List Char) (h : c.isWhitespace = false) :
    splitWs (c :: rest) =
      (c :: rest.takeWhile (fun x => !x.isWhitespace)) ::
        splitWs (rest.dropWhile (fun x => !x.isWhitespace)) := by
  show splitWsAux (rest.length + 1) (c :: rest) = _
  simp only [splitWsAux, h, Bool.false_eq_true, if_false]
  have hdrop := (List.dropWhile_sublist (l := rest) (fun x => !x.isWhitespace)).length_le
  rw [splitWsAux_congr rest.length _ (by omega)]

lemma takeWhile_all {p : Char → Bool} : ∀ l : List Char,
    (∀ c ∈ l, p c = true) → l.takeWhile p = l
  | [], _ => rfl
  | c :: rest, h => by
    rw [List.takeWhile_cons, if_pos (h c (List.mem_cons_self c rest))]
    rw [takeWhile_all rest (fun x hx => h x (List.mem_cons_of_mem _ hx))]

lemma dropWhile_all {p : Char → Bool} : ∀ l : List Char,
    (∀ c ∈ l, p c = true) → l.dropWhile p = []
  | [], _ => rfl
  | c :: rest, h => by
    rw [List.dropWhile_cons, if_pos (h c (List.mem_cons_self c rest))]
    exact dropWhile_all rest (fun x hx => h x (List.mem_cons_of_mem _ hx))

lemma takeWhile_append_all {p : Char → Bool} : ∀ (l1 l2 : List Char),
    (∀ c ∈ l1, p c = true) → (l1 ++ l2).takeWhile p = l1 ++ l2.takeWhile p
  | [], l2, _ => rfl
  | c :: rest, l2, h => by
    rw [List.cons_append, List.takeWhile_cons, if_pos (h c (List.mem_cons_self c rest)),
      takeWhile_append_all rest l2 (fun x hx => h x (List.mem_cons_of_mem _ hx))]
    rfl

lemma dropWhile_append_all {p : Char → Bool} : ∀ (l1 l2 : List Char),
    (∀ c ∈ l1, p c = true) → (l1 ++ l2).dropWhile p = l2.dropWhile p
  | [], l2, _ => rfl
  | c :: rest, l2, h => by
    rw [List.cons_append, List.dropWhile_cons, if_pos (h c (List.mem_cons_self c rest))]
    exact dropWhile_append_all rest l2 (fun x hx => h x (List.mem_cons_of_mem _ hx))

lemma splitWs_word (w : List Char) (hw : w ≠ [])
    (hnws : ∀ c ∈ w, c.isWhitespace = false) : splitWs w = [w] := by
  cases w with
  | nil => exact absurd rfl hw
  | cons c cs =>
    have hc : c.isWhitespace = false := hnws c (List.mem_cons_self c cs)
    have hall : ∀ x ∈ cs, (fun x => !x.isWhitespace) x = true := by
      intro x hx
      simp [hnws x (List.mem_cons_of_mem _ hx)]
    rw [splitWs_cons_nws cs hc, takeWhile_all cs hall, dropWhile_all cs hall]
    rfl

lemma splitWs_word_append (w : List Char) (hw : w ≠ [])
    (hnws : ∀ c ∈ w, c.isWhitespace = false) (l : List Char) :
    splitWs (w ++ ' ' :: l) = w :: splitWs l := by
  cases w with
  | nil => exact absurd rfl hw
  | cons c cs =>
    have hc : c.isWhitespace = false := hnws c (List.mem_cons_self c cs)
    have hall : ∀ x ∈ cs, (fun x => !x.isWhitespace) x = true := by
      intro x hx
      simp [hnws x (List.mem_cons_of_mem _ hx)]
    rw [List.cons_append, splitWs_cons_nws _ hc,
      takeWhile_append_all cs (' ' :: l) hall, dropWhile_append_all cs (' ' :: l) hall]
    have hsp : (' ' :: l).takeWhile (fun x => !x.isWhitespace) = [] := by
      rw [List.takeWhile_cons]
      simp
    have hsp2 : (' ' :: l).dropWhile (fun x => !x.isWhitespace) = ' ' :: l := by
      rw [List.dropWhile_cons]
      simp
    rw [hsp, hsp2, List.append_nil, splitWs_cons_ws l (by decide)]

lemma splitWs_words_ok : ∀ (n : Nat) (l : List Char), l.length ≤ n →
    ∀ w ∈ splitWs l, w ≠ [] ∧ ∀ c ∈ w, c.isWhitespace = false := by
  intro n
  induction n with
  | zero =>
    intro l hl
    cases l with
    | nil => intro w hw; cases hw
    | cons c rest => simp at hl
  | succ k ih =>
    intro l hl
    cases l with
    | nil => intro w hw; cases hw
    | cons c rest =>
      have hr : rest.length ≤ k := by
        simp only [List.length_cons] at hl
        omega
      by_cases hws : c.isWhitespace
      · rw [splitWs_cons_ws rest hws]
        exact ih rest hr
      · rw [splitWs_cons_nws rest (by simpa using hws)]
        intro w hw
        rcases List.mem_cons.mp hw with rfl | hw2
        · refine ⟨by simp, ?_⟩
          intro x hx
          rcases List.mem_cons.mp hx with rfl | hx2
          · simpa using hws
          · have := List.mem_takeWhile_imp hx2
            simpa using this
        · have hdrop := (List.dropWhile_sublist (l := rest)
            (fun x => !x.isWhitespace)).length_le
          exact ih _ (by omega) w hw2

lemma splitWs_join_append (d : List Char) (hd : d ≠ [])
    (hdnws : ∀ c ∈ d, c.isWhitespace = false) :
    ∀ ws : List (List Char), ws ≠ [] →
      (∀ w ∈ ws, w ≠ [] ∧ ∀ c ∈ w, c.isWhitespace = false) →
      (splitWs (joinSpace ws ++ d)).length = ws.length
  | [], hne, _ => absurd rfl hne
  | [w], _, hok => by
    have h1 := hok w (List.mem_cons_self w [])
    have hnws : ∀ c ∈ w ++ d, c.isWhitespace = false := by
      intro x hx
      rcases List.mem_append.mp hx with hx | hx
      · exact h1.2 x hx
      · exact hdnws x hx
    rw [show joinSpace [w] = w from rfl, splitWs_word (w ++ d) (by simp [h1.1]) hnws]
    rfl
  | w :: w2 :: rest, _, hok => by
    have h1 := hok w (List.mem_cons_self w _)
    have hjoin : joinSpace (w :: w2 :: rest) ++ d =
        w ++ ' ' :: (joinSpace (w2 :: rest) ++ d) := by
      show (w ++ ' ' :: joinSpace (w2 :: rest)) ++ d = _
      simp
    rw [hjoin, splitWs_word_append w h1.1 h1.2]
    have hrec := splitWs_join_append d hd hdnws (w2 :: rest) (by simp)
      (fun x hx => hok x (List.mem_cons_of_mem _ hx))
    simp only [List.length_cons] at hrec ⊢
    omega

/-! ## Truncation lemmas -/

lemma truncate_le (text : String) (h : wordCount text ≤ 50) :
    truncate_description text = text := by
  unfold truncate_description
  by_cases he : text = ""
  · rw [if_pos he]
  · rw [if_neg he]
    have h2 : (splitWs text.data).length ≤ 50 := h
    show (if (splitWs text.data).length ≤ 50 then text else _) = text
    rw [if_pos h2]

lemma truncate_gt (text : String) (h : wordCount text > 50) :
    truncate_description text =
      ⟨joinSpace ((splitWs text.data).take 50) ++ "...".data⟩ := by
  unfold truncate_description
  have he : ¬text = "" := by
    rintro rfl
    have h0 : wordCount "" = 0 := rfl
    omega
  rw [if_neg he]
  have h2 : ¬(splitWs text.data).length ≤ 50 := by
    unfold wordCount at h
    omega
  show (if (splitWs text.data).length ≤ 50 then text else _) = _
  rw [if_neg h2]

lemma truncate_wordCount (text : String) : wordCount (truncate_description text) ≤ 50 := by
  by_cases h : wordCount text ≤ 50
  · rw [truncate_le text h]
    exact h
  · rw [truncate_gt text (by omega)]
    have hlen : ((splitWs text.data).take 50).length = 50 := by
      rw [List.length_take]
      unfold wordCount at h
      omega
    have hok : ∀ w ∈ (splitWs text.data).take 50,
        w ≠ [] ∧ ∀ c ∈ w, c.isWhitespace = false :=
      fun w hw => splitWs_words_ok text.data.length text.data (Nat.le_refl _) w
        (List.mem_of_mem_take hw)
    have hne : (splitWs text.data).take 50 ≠ [] := by
      intro heq
      rw [heq] at hlen
      simp at hlen
    have hj := splitWs_join_append "...".data (by decide) (by decide)
      ((splitWs text.data).take 50) hne hok
    show (splitWs (joinSpace ((splitWs text.data).take 50) ++ "...".data)).length ≤ 50
    omega

/-! ## Cleaning-loop lemmas -/

lemma processEntry_missing_grows (cfg : TopicConfig) (urls : List UrlsRecord)
    (st : CleanState) (a : Article) :
    st.missing_urls <+: (processEntry cfg urls st a).missing_urls := by
  unfold processEntry
  repeat' split
  all_goals simp [List.prefix_append]

lemma processEntry_existing_mono (cfg : TopicConfig) (urls : List UrlsRecord)
    (st : CleanState) (a : Article) (u : String) (hu : u ∈ st.existing_urls) :
    u ∈ (processEntry cfg urls st a).existing_urls := by
  unfold processEntry
  repeat' split
  all_goals first
    | exact hu
    | exact List.mem_append_left _ hu

lemma processEntry_existing_sub (cfg : TopicConfig) (urls : List UrlsRecord)
    (st : CleanState) (a : Article) (u : String)
    (hu : u ∈ (processEntry cfg urls st a).existing_urls) :
    u ∈ st.existing_urls ∨ (build_url_index urls u).isSome = true := by
  unfold processEntry at hu
  repeat' split at hu
  all_goals try exact Or.inl hu
  rcases List.mem_append.mp hu with h | h
  · exact Or.inl h
  · right
    simp only [List.mem_singleton] at h
    subst h
    simp_all

lemma processEntry_count_eq (cfg : TopicConfig) (urls : List UrlsRecord)
    (st : CleanState) (a : Article)
    (h : st.count_added = st.new_entries.length) :
    (processEntry cfg urls st a).count_added =
      (processEntry cfg urls st a).new_entries.length := by
  unfold processEntry
  repeat' split
  all_goals simp [h]

lemma processEntry_skip_mono (cfg : TopicConfig) (urls : List UrlsRecord)
    (st : CleanState) (a : Article) :
    st.count_skipped_already_exists ≤
      (processEntry cfg urls st a).count_skipped_already_exists := by
  unfold processEntry
  repeat' split
  all_goals simp

lemma processEntry_skip_hit (cfg : TopicConfig) (urls : List UrlsRecord)
    (st : CleanState) (a : Article) (U : String)
    (hsucc : a.success = true) (hurl : a.url = some U) (hne : U ≠ "")
    (hmem : U ∈ st.existing_urls) :
    (processEntry cfg urls st a).count_skipped_already_exists =
      st.count_skipped_already_exists + 1 := by
  unfold processEntry
  have hcont : st.existing_urls.contains U = true := List.elem_iff.mpr hmem
  simp only [hsucc, Bool.not_true, Bool.false_eq_true, if_false, hurl, hcont, if_true,
    hne, ite_false]

lemma processEntry_missing_hit (cfg : TopicConfig) (urls : List UrlsRecord)
    (st : CleanState) (a : Article) (u : String)
    (hsucc : a.success = true) (hurl : a.url = some u) (hne : u ≠ "")
    (hnotmem : u ∉ st.existing_urls) (hbuild : build_url_index urls u = none) :
    (processEntry cfg urls st a).missing_urls = st.missing_urls ++ [u] := by
  unfold processEntry
  have hcont : st.existing_urls.contains u = false := by
    rw [← Bool.not_eq_true]
    simpa [List.elem_iff] using hnotmem
  simp only [hsucc, Bool.not_true, Bool.false_eq_true, if_false, hurl, hcont, hbuild]
  rw [if_neg hne]

lemma processEntry_new_mem (cfg : TopicConfig) (urls : List UrlsRecord)
    (st : CleanState) (a : Article) (e : Entry)
    (he : e ∈ (processEntry cfg urls st a).new_entries) :
    e ∈ st.new_entries ∨
      (e.url ∉ st.existing_urls
        ∧ (∃ a0 u ud, build_url_index urls u = some ud ∧ e = mkCleanedEntry cfg.name a0 u ud)
        ∧ (cfg.topic_keywords ≠ [] → is_topic_relevant e cfg.topic_keywords = true)) := by
  unfold processEntry at he
  repeat' split at he
  all_goals try exact Or.inl he
  rcases List.mem_append.mp he with h | h
  · exact Or.inl h
  · right
    simp only [List.mem_singleton] at h
    subst h
    rename_i hurl hne0 hcont x2 ud0 hbuild hlang htop hstrict
    refine ⟨?_, ⟨a, _, ud0, hbuild, rfl⟩, ?_⟩
    · intro hmem
      exact hcont (List.elem_iff.mpr hmem)
    · intro hkws
      by_contra hrel
      exact hstrict ⟨hkws, by simpa using hrel⟩

lemma processArticles_missing_grows (cfg : TopicConfig) (urls : List UrlsRecord) :
    ∀ (arts : List Article) (st : CleanState),
      st.missing_urls <+: (processArticles cfg urls st arts).missing_urls
  | [], _ => List.prefix_refl _
  | a :: rest, st =>
    (processEntry_missing_grows cfg urls st a).trans
      (processArticles_missing_grows cfg urls rest (processEntry cfg urls st a))

lemma processArticles_existing_mono (cfg : TopicConfig) (urls : List UrlsRecord) :
    ∀ (arts : List Article) (st : CleanState) (u : String), u ∈ st.existing_urls →
      u ∈ (processArticles cfg urls st arts).existing_urls
  | [], _, _, hu => hu
  | a :: rest, st, u, hu =>
    processArticles_existing_mono cfg urls rest (processEntry cfg urls st a) u
      (processEntry_existing_mono cfg urls st a u hu)

lemma processArticles_count_eq (cfg : TopicConfig) (urls : List UrlsRecord) :
    ∀ (arts : List Article) (st : CleanState),
      st.count_added = st.new_entries.length →
      (processArticles cfg urls st arts).count_added =
        (processArticles cfg urls st arts).new_entries.length
  | [], _, h => h
  | a :: rest, st, h =>
    processArticles_count_eq cfg urls rest (processEntry cfg urls st a)
      (processEntry_count_eq cfg urls st a h)

lemma processArticles_skip_mono (cfg : TopicConfig) (urls : List UrlsRecord) :
    ∀ (arts : List Article) (st : CleanState),
      st.count_skipped_already_exists ≤
        (processArticles cfg urls st arts).count_skipped_already_exists
  | [], _ => Nat.le_refl _
  | a :: rest, st =>
    (processEntry_skip_mono cfg urls st a).trans
      (processArticles_skip_mono cfg urls rest (processEntry cfg urls st a))

lemma processArticles_skip_ge (cfg : TopicConfig) (urls : List UrlsRecord) (U : String)
    (hne : U ≠ "") :
    ∀ (arts : List Article) (st : CleanState), U ∈ st.existing_urls →
      st.count_skipped_already_exists +
          (arts.filter (fun a => a.success && (a.url == some U))).length ≤
        (processArticles cfg urls st arts).count_skipped_already_exists := by
  intro arts
  induction arts with
  | nil =>
    intro st hU
    simp [processArticles]
  | cons a rest ih =>
    intro st hU
    show st.count_skipped_already_exists + _ ≤
      (processArticles cfg urls (processEntry cfg urls st a) rest).count_skipped_already_exists
    have hU2 : U ∈ (processEntry cfg urls st a).existing_urls :=
      processEntry_existing_mono cfg urls st a U hU
    have hrec := ih (processEntry cfg urls st a) hU2
    rw [List.filter_cons]
    by_cases hmatch : (a.success && (a.url == some U)) = true
    · rw [if_pos hmatch]
      obtain ⟨hsucc, hurl⟩ := (Bool.and_eq_true _ _).mp hmatch
      have hstep := processEntry_skip_hit cfg urls st a U hsucc (by simpa using hurl) hne hU
      rw [hstep] at hrec
      simp only [List.length_cons]
      omega
    · rw [if_neg hmatch]
      have hstep := processEntry_skip_mono cfg urls st a
      omega

lemma processArticles_notmem (cfg : TopicConfig) (urls : List UrlsRecord) (u : String)
    (hbuild : build_url_index urls u = none) :
    ∀ (arts : List Article) (st : CleanState), u ∉ st.existing_urls →
      u ∉ (processArticles cfg urls st arts).existing_urls
  | [], _, hu => hu
  | a :: rest, st, hu =>
    processArticles_notmem cfg urls u hbuild rest (processEntry cfg urls st a)
      (fun hmem => by
        rcases processEntry_existing_sub cfg urls st a u hmem with h | h
        · exact hu h
        · rw [hbuild] at h
          cases h)

lemma processArticles_missing_hit (cfg : TopicConfig) (urls : List UrlsRecord) (u : String)
    (hbuild : build_url_index urls u = none) (hne : u ≠ "") :
    ∀ (arts : List Article) (st : CleanState), u ∉ st.existing_urls →
      (∃ a ∈ arts, a.success = true ∧ a.url = some u) →
      u ∈ (processArticles cfg urls st arts).missing_urls := by
  intro arts
  induction arts with
  | nil =>
    rintro st - ⟨a, ha, -⟩
    cases ha
  | cons a rest ih =>
    rintro st hu ⟨a0, ha0, hsucc, hurl⟩
    show u ∈ (processArticles cfg urls (processEntry cfg urls st a) rest).missing_urls
    rcases List.mem_cons.mp ha0 with rfl | ha0
    · have hstep := processEntry_missing_hit cfg urls st a0 u hsucc hurl hne hu hbuild
      have hpre := processArticles_missing_grows cfg urls rest (processEntry cfg urls st a0)
      refine hpre.subset ?_
      rw [hstep]
      exact List.mem_append_right _ (List.mem_singleton.mpr rfl)
    · refine ih (processEntry cfg urls st a) ?_ ⟨a0, ha0, hsucc, hurl⟩
      intro hmem
      rcases processEntry_existing_sub cfg urls st a u hmem with h | h
      · exact hu h
      · rw [hbuild] at h
        cases h

lemma processArticles_new_mem (cfg : TopicConfig) (urls : List UrlsRecord) :
    ∀ (arts : List Article) (st : CleanState), ∀ e ∈ (processArticles cfg urls st arts).new_entries,
      e ∈ st.new_entries ∨
        (e.url ∉ st.existing_urls
          ∧ (∃ a0 u ud, build_url_index urls u = some ud ∧ e = mkCleanedEntry cfg.name a0 u ud)
          ∧ (cfg.topic_keywords ≠ [] → is_topic_relevant e cfg.topic_keywords = true)) := by
  intro arts
  induction arts with
  | nil =>
    intro st e he
    exact Or.inl he
  | cons a rest ih =>
    intro st e he
    rcases ih (processEntry cfg urls st a) e he with h | ⟨hnm, hshape, hrel⟩
    · rcases processEntry_new_mem cfg urls st a e h with h2 | ⟨hnm, hshape, hrel⟩
      · exact Or.inl h2
      · exact Or.inr ⟨hnm, hshape, hrel⟩
    · refine Or.inr ⟨?_, hshape, hrel⟩
      intro hmem
      exact hnm (processEntry_existing_mono cfg urls st a e.url hmem)

/-- C1 (amended): when some successfully-scraped record carries a
nonempty url that is neither already in the loaded output nor present
in the urls.jsonl index, the run aborts before writing: that url is
recorded in the missing-URL list, the exit code is 1, no output is
written, and the printed report shows the first ten missing URLs plus
an overflow count accounting for the rest. -/
theorem clean_missing_url_abort (cfg : TopicConfig) (arts : List Article)
    (urls : List UrlsRecord) (existing : List Entry) (dates : List String)
    (now u : String)
    (hu : ∃ a ∈ arts, a.success = true ∧ a.url = some u ∧ u ≠ "" ∧
      build_url_index urls u = none)
    (hex : u ∉ existing.map (·.url)) :
    u ∈ (processArticles cfg urls (initState existing) arts).missing_urls
    ∧ cleanRun cfg arts urls existing dates now =
        RunOutcome.abort (processArticles cfg urls (initState existing) arts).missing_urls
    ∧ exitCode (cleanRun cfg arts urls existing dates now) = 1
    ∧ (∀ h e, cleanRun cfg arts urls existing dates now ≠ RunOutcome.written h e)
    ∧ (reportShown (processArticles cfg urls (initState existing) arts).missing_urls).length ≤ 10
    ∧ reportShown (processArticles cfg urls (initState existing) arts).missing_urls <+:
        (processArticles cfg urls (initState existing) arts).missing_urls
    ∧ (reportShown (processArticles cfg urls (initState existing) arts).missing_urls).length +
        reportOverflow (processArticles cfg urls (initState existing) arts).missing_urls =
        (processArticles cfg urls (initState existing) arts).missing_urls.length := by
  obtain ⟨a, ha, hsucc, hurl, hne, hbuild⟩ := hu
  have hmem : u ∈ (processArticles cfg urls (initState existing) arts).missing_urls :=
    processArticles_missing_hit cfg urls u hbuild hne arts (initState existing) hex
      ⟨a, ha, hsucc, hurl⟩
  have hMne : (processArticles cfg urls (initState existing) arts).missing_urls ≠ [] :=
    List.ne_nil_of_mem hmem
  have habort : cleanRun cfg arts urls existing dates now =
      RunOutcome.abort (processArticles cfg urls (initState existing) arts).missing_urls := by
    unfold cleanRun
    rw [if_pos hMne]
  refine ⟨hmem, habort, ?_, ?_, ?_, List.take_prefix _ _, ?_⟩
  · rw [habort]
    rfl
  · intro h e heq
    rw [habort] at heq
    cases heq
  · simp only [reportShown, List.length_take]
    omega
  · simp only [reportShown, reportOverflow, List.length_take]
    omega

/-- Witness for C1 (amended) at a concrete run: one successful record
whose url is absent from the urls index aborts the run with exit code
1 and reports the url. -/
theorem clean_missing_url_abort_witness :
    "https://x/1" ∈ (processArticles ⟨"alpha", ["x"], [], []⟩ []
        (initState [])
        [⟨true, some "https://x/1", some "t", some "d"⟩]).missing_urls
    ∧ exitCode (cleanRun ⟨"alpha", ["x"], [], []⟩
        [⟨true, some "https://x/1", some "t", some "d"⟩] [] [] [] "T") = 1 := by
  have h := clean_missing_url_abort ⟨"alpha", ["x"], [], []⟩
    [⟨true, some "https://x/1", some "t", some "d"⟩] [] [] [] "T" "https://x/1"
    ⟨_, List.mem_cons_self _ _, rfl, rfl, by decide, rfl⟩ (by decide)
  exact ⟨h.1, h.2.2.1⟩

/-- C1 counterexample: a successfully-scraped record whose url is
absent from the urls index but already present in the loaded output is
skipped as already-existing before the index lookup, so the run does
not abort, the url is not recorded as missing, and the exit code is 0
- against the claim that every such record forces exit code 1 with the
url reported.  (In the default regenerate mode the loaded output is
empty, so the abort does fire; the claim fails for runs that load
existing entries, such as append mode or the single-topic script.) -/
theorem clean_missing_url_existing_counterexample :
    ([(⟨true, some "https://x/1", some "t", some "d"⟩ : Article)].any
      (fun a => a.success && (a.url == some "https://x/1"))) = true
    ∧ build_url_index [] "https://x/1" = none
    ∧ (processArticles ⟨"alpha", ["x"], [], []⟩ []
        (initState [⟨none, some "t", some "d", some "2026-01-10", "https://x/1", "alpha"⟩])
        [⟨true, some "https://x/1", some "t", some "d"⟩]).missing_urls = []
    ∧ exitCode (cleanRun ⟨"alpha", ["x"], [], []⟩
        [⟨true, some "https://x/1", some "t", some "d"⟩] []
        [⟨none, some "t", some "d", some "2026-01-10", "https://x/1", "alpha"⟩]
        [] "T") = 0 := by
  decide

/-- C5 (amended): a second cleaning run on unchanged raw input
produces exactly the same sorted record lines; what changes is only
the metadata header, whose `last_updated` field is the run timestamp,
so the written files differ exactly when the timestamps differ. -/
theorem clean_rerun_records_identical (cfg : TopicConfig) (arts : List Article)
    (urls : List UrlsRecord) (existing : List Entry) (dates : List String)
    (t1 t2 : String) (h : MetaHeader) (e : List Entry)
    (hw : cleanRun cfg arts urls existing dates t1 = RunOutcome.written h e) :
    h.last_updated = t1
    ∧ cleanRun cfg arts urls existing dates t2 =
        RunOutcome.written { h with last_updated := t2 } e
    ∧ (t1 ≠ t2 → cleanRun cfg arts urls existing dates t2 ≠
        cleanRun cfg arts urls existing dates t1) := by
  by_cases h1 : (processArticles cfg urls (initState existing) arts).missing_urls ≠ []
  · have : cleanRun cfg arts urls existing dates t1 =
        RunOutcome.abort (processArticles cfg urls (initState existing) arts).missing_urls := by
      unfold cleanRun
      rw [if_pos h1]
    rw [this] at hw
    cases hw
  · by_cases h2 : (processArticles cfg urls (initState existing) arts).count_added = 0
    · have : cleanRun cfg arts urls existing dates t1 = RunOutcome.noNew := by
        unfold cleanRun
        rw [if_neg h1, if_pos h2]
      rw [this] at hw
      cases hw
    · have ht1 : cleanRun cfg arts urls existing dates t1 =
          RunOutcome.written
            (create_meta_header cfg.name
              (sortEntries (existing ++
                (processArticles cfg urls (initState existing) arts).new_entries)).length
              dates t1)
            (sortEntries (existing ++
              (processArticles cfg urls (initState existing) arts).new_entries)) := by
        unfold cleanRun
        rw [if_neg h1, if_neg h2]
      have ht2 : cleanRun cfg arts urls existing dates t2 =
          RunOutcome.written
            (create_meta_header cfg.name
              (sortEntries (existing ++
                (processArticles cfg urls (initState existing) arts).new_entries)).length
              dates t2)
            (sortEntries (existing ++
              (processArticles cfg urls (initState existing) arts).new_entries)) := by
        unfold cleanRun
        rw [if_neg h1, if_neg h2]
      rw [ht1] at hw
      obtain ⟨hhead, hent⟩ := (RunOutcome.written.injEq _ _ _ _).mp hw
      subst hent
      subst hhead
      refine ⟨rfl, by rw [ht2]; rfl, fun hne heq => ?_⟩
      rw [ht1, ht2] at heq
      obtain ⟨hhead2, -⟩ := (RunOutcome.written.injEq _ _ _ _).mp heq
      have hts := congrArg MetaHeader.last_updated hhead2
      simp only [create_meta_header] at hts
      exact hne hts.symm

/-- Witness for C5 (amended): the concrete run from the
counterexample, replayed at another timestamp, writes the same entry
list under a header differing only in `last_updated`. -/
theorem clean_rerun_records_identical_witness :
    cleanRun ⟨"alpha", ["x"], [], []⟩
        [⟨true, some "https://x/1", some "x news", some "about x"⟩]
        [⟨"https://x/1", some "nytimes.com", some "2026-01-10", some "en"⟩]
        [] ["2026-01-10"] "T2" =
      RunOutcome.written
        { topic := "alpha", record_count := 1, dates_collected := ["2026-01-10"],
          last_updated := "T2" }
        [⟨some "nytimes.com", some "x news", some "about x", some "2026-01-10",
          "https://x/1", "alpha"⟩]
    ∧ cleanRun ⟨"alpha", ["x"], [], []⟩
        [⟨true, some "https://x/1", some "x news", some "about x"⟩]
        [⟨"https://x/1", some "nytimes.com", some "2026-01-10", some "en"⟩]
        [] ["2026-01-10"] "T2" ≠
      cleanRun ⟨"alpha", ["x"], [], []⟩
        [⟨true, some "https://x/1", some "x news", some "about x"⟩]
        [⟨"https://x/1", some "nytimes.com", some "2026-01-10", some "en"⟩]
        [] ["2026-01-10"] "T1" := by
  have h := clean_rerun_records_identical ⟨"alpha", ["x"], [], []⟩
    [⟨true, some "https://x/1", some "x news", some "about x"⟩]
    [⟨"https://x/1", some "nytimes.com", some "2026-01-10", some "en"⟩]
    [] ["2026-01-10"] "T1" "T2"
    { topic := "alpha", record_count := 1, dates_collected := ["2026-01-10"],
      last_updated := "T1" }
    [⟨some "nytimes.com", some "x news", some "about x", some "2026-01-10",
      "https://x/1", "alpha"⟩]
    (by decide)
  exact ⟨h.2.1, h.2.2 (by decide)⟩

/-- C5 counterexample: the same raw input cleaned at two different
timestamps does not produce byte-identical output - the meta header
line embeds `datetime.now()` via `last_updated`. -/
theorem clean_rerun_not_byte_identical :
    cleanRun ⟨"alpha", ["x"], [], []⟩
        [⟨true, some "https://x/1", some "x news", some "about x"⟩]
        [⟨"https://x/1", some "nytimes.com", some "2026-01-10", some "en"⟩]
        [] ["2026-01-10"] "2026-02-01T00:00:00" ≠
      cleanRun ⟨"alpha", ["x"], [], []⟩
        [⟨true, some "https://x/1", some "x news", some "about x"⟩]
        [⟨"https://x/1", some "nytimes.com", some "2026-01-10", some "en"⟩]
        [] ["2026-01-10"] "2026-02-02T00:00:00" := by
  decide

/-- C9: when the loaded output already contains a record with
(nonempty) url `U`, re-running the clean stage over raw input that
also scrapes `U` adds no second entry with that url: no new entry
carries `U`, `count_added` counts exactly the new entries (none of
which is a `U` entry), every successful `U` article is counted as
skipped-already-exists, and a written output holds exactly as many
`U` records as the loaded output did. -/
theorem clean_dedup_across_runs (cfg : TopicConfig) (arts : List Article)
    (urls : List UrlsRecord) (existing : List Entry) (dates : List String)
    (now U : String) (hU : U ∈ existing.map (·.url)) (hne : U ≠ "") :
    (∀ e ∈ (processArticles cfg urls (initState existing) arts).new_entries, e.url ≠ U)
    ∧ (processArticles cfg urls (initState existing) arts).count_added =
        (processArticles cfg urls (initState existing) arts).new_entries.length
    ∧ (arts.filter (fun a => a.success && (a.url == some U))).length ≤
        (processArticles cfg urls (initState existing) arts).count_skipped_already_exists
    ∧ ∀ h out, cleanRun cfg arts urls existing dates now = RunOutcome.written h out →
        out.countP (fun e => e.url == U) = existing.countP (fun e => e.url == U) := by
  have hnew : ∀ e ∈ (processArticles cfg urls (initState existing) arts).new_entries,
      e.url ≠ U := by
    intro e he
    rcases processArticles_new_mem cfg urls arts (initState existing) e he with h | ⟨hnm, -, -⟩
    · cases h
    · intro heq
      rw [heq] at hnm
      exact hnm hU
  refine ⟨hnew, processArticles_count_eq cfg urls arts (initState existing) rfl, ?_, ?_⟩
  · have := processArticles_skip_ge cfg urls U hne arts (initState existing) hU
    simpa [initState] using this
  · intro h out hw
    unfold cleanRun at hw
    by_cases h1 : (processArticles cfg urls (initState existing) arts).missing_urls ≠ []
    · rw [if_pos h1] at hw
      cases hw
    · rw [if_neg h1] at hw
      by_cases h2 : (processArticles cfg urls (initState existing) arts).count_added = 0
      · rw [if_pos h2] at hw
        cases hw
      · rw [if_neg h2] at hw
        obtain ⟨-, hent⟩ := (RunOutcome.written.injEq _ _ _ _).mp hw
        subst hent
        rw [List.Perm.countP_eq _ (sortEntries_perm _), List.countP_append]
        have hzero : (processArticles cfg urls (initState existing) arts).new_entries.countP
            (fun e => e.url == U) = 0 := by
          rw [List.countP_eq_zero]
          intro e he
          simp only [beq_iff_eq]
          exact fun heq => hnew e he heq
        rw [hzero]
        exact Nat.add_zero _

/-- Witness for C9 at a concrete re-run: the raw input repeats the url
`https://x/2` already present in the output; nothing is added, the
article is counted as already existing, and the written output would
keep a single `https://x/2` record. -/
theorem clean_dedup_across_runs_witness :
    (∀ e ∈ (processArticles ⟨"alpha", ["x"], [], []⟩
        [⟨"https://x/2", some "nytimes.com", some "2026-01-10", some "en"⟩]
        (initState [⟨some "nytimes.com", some "t", some "d", some "2026-01-10",
          "https://x/2", "alpha"⟩])
        [⟨true, some "https://x/2", some "x news", some "about x"⟩]).new_entries,
      e.url ≠ "https://x/2")
    ∧ ([(⟨true, some "https://x/2", some "x news", some "about x"⟩ : Article)].filter
        (fun a => a.success && (a.url == some "https://x/2"))).length ≤
      (processArticles ⟨"alpha", ["x"], [], []⟩
        [⟨"https://x/2", some "nytimes.com", some "2026-01-10", some "en"⟩]
        (initState [⟨some "nytimes.com", some "t", some "d", some "2026-01-10",
          "https://x/2", "alpha"⟩])
        [⟨true, some "https://x/2", some "x news", some "about x"⟩]).count_skipped_already_exists := by
  have h := clean_dedup_across_runs ⟨"alpha", ["x"], [], []⟩
    [⟨true, some "https://x/2", some "x news", some "about x"⟩]
    [⟨"https://x/2", some "nytimes.com", some "2026-01-10", some "en"⟩]
    [⟨some "nytimes.com", some "t", some "d", some "2026-01-10", "https://x/2", "alpha"⟩]
    [] "T" "https://x/2" (by decide) (by decide)
  exact ⟨h.1, h.2.2.1⟩

/-- C10: every new cleaned entry's description passes through
`truncate_description` before the strict relevance filter and before
writing: a text of at most 50 whitespace-separated words is unchanged,
a longer one becomes its first 50 words joined by single spaces with
an ellipsis appended; hence every present description of a new entry
is a truncation output of at most 50 words, and the entry as published
(with its truncated description) satisfies the strict filter whenever
strict keywords are configured. -/
theorem clean_truncate_descriptions :
    (∀ text : String, wordCount text ≤ 50 → truncate_description text = text)
    ∧ (∀ text : String, wordCount text > 50 →
        truncate_description text =
          ⟨joinSpace ((splitWs text.data).take 50) ++ "...".data⟩)
    ∧ (∀ text : String, wordCount (truncate_description text) ≤ 50)
    ∧ (∀ (cfg : TopicConfig) (urls : List UrlsRecord) (arts : List Article)
        (existing : List Entry),
        ∀ e ∈ (processArticles cfg urls (initState existing) arts).new_entries,
          (∀ d, e.description = some d →
            wordCount d ≤ 50 ∧ ∃ d0, d = truncate_description d0)
          ∧ (cfg.topic_keywords ≠ [] → is_topic_relevant e cfg.topic_keywords = true)) := by
  refine ⟨truncate_le, truncate_gt, truncate_wordCount, ?_⟩
  intro cfg urls arts existing e he
  rcases processArticles_new_mem cfg urls arts (initState existing) e he with
    h | ⟨-, ⟨a0, u, ud, -, hmk⟩, hrel⟩
  · cases h
  · refine ⟨?_, hrel⟩
    intro d hd
    rw [hmk] at hd
    simp only [mkCleanedEntry] at hd
    rcases ha0 : a0.description with - | d0
    · simp only [ha0] at hd
      cases hd
    · simp only [ha0] at hd
      by_cases hd0 : d0 ≠ ""
      · rw [if_pos hd0] at hd
        obtain rfl := (Option.some.injEq _ _).mp hd
        exact ⟨truncate_wordCount d0, d0, rfl⟩
      · rw [if_neg hd0] at hd
        obtain rfl := (Option.some.injEq _ _).mp hd
        rw [not_not] at hd0
        subst hd0
        exact ⟨by decide, "", rfl⟩

/-- Witness for C10: a 4-word description is unchanged, a 52-word
description is cut to 50 words plus an ellipsis, and a concrete run's
single new entry has a short truncated description and passes the
strict filter as published. -/
theorem clean_truncate_descriptions_witness :
    truncate_description "greenland trade deal advances" = "greenland trade deal advances"
    ∧ wordCount
        (truncate_description
          "a b c d e f g h i j a b c d e f g h i j a b c d e f g h i j a b c d e f g h i j a b c d e f g h i j x y") ≤ 50
    ∧ (∀ d, (⟨some "nytimes.com", some "x news", some "about x", some "2026-01-10",
          "https://x/1", "alpha"⟩ : Entry).description = some d →
        wordCount d ≤ 50 ∧ ∃ d0, d = truncate_description d0)
    ∧ is_topic_relevant
        (⟨some "nytimes.com", some "x news", some "about x", some "2026-01-10",
          "https://x/1", "alpha"⟩ : Entry) ["x"] = true := by
  have hp := clean_truncate_descriptions.2.2.2 ⟨"alpha", ["x"], ["x"], []⟩
    [⟨"https://x/1", some "nytimes.com", some "2026-01-10", some "en"⟩]
    [⟨true, some "https://x/1", some "x news", some "about x"⟩] []
    ⟨some "nytimes.com", some "x news", some "about x", some "2026-01-10",
      "https://x/1", "alpha"⟩ (by decide)
  exact ⟨clean_truncate_descriptions.1 "greenland trade deal advances" (by decide),
    clean_truncate_descriptions.2.2.1 _,
    hp.1,
    hp.2 (by decide)⟩
